import Mathlib

/-!
chans: an unbounded, closeable FIFO channel, and helpers on native channels.

A shallow embedding of `chan.go` and `chans.go`.  Go pointers to queue nodes are
addresses into a node store kept in the channel state (`Option Nat`, `none`
being the nil pointer); `new(node[T])` appends a zero node to the store.  Every
method is a function from the state before the call to a `Result`: the call
returns, panics, or never returns, together with the state it leaves behind.
Calls are taken one at a time, which is how the single mutex serialises them.
The helpers of `chans.go` run on a model of a native channel: its buffer, the
senders blocked on it, and whether it is closed.
-/

namespace chans

/-- The constant `maxFreeCache` of `chan.go`. -/
def maxFreeCache : Int := 1000

/-- Go `int` arithmetic on a 64-bit target: results wrap around in two's complement. -/
def wrapInt (x : Int) : Int :=
  (x + 9223372036854775808) % 18446744073709551616 - 9223372036854775808

/-- The struct `node[T]`: one value and the pointer to the next node. -/
structure node (T : Type) where
  data : T
  next : Option Nat
deriving DecidableEq

/-- The struct `Chan[T]`.  `L` is `cond.L`: `none` is a nil locker, `some b` a
mutex that is held when `b` is true.  `store` holds every node allocated so far. -/
structure Chan (T : Type) where
  L : Option Bool
  store : List (node T)
  head : Option Nat
  tail : Option Nat
  free : Option Nat
  freed : Int
  closed : Bool
deriving DecidableEq

/-- How a call ends: it returns a value, it panics with a message, or it never
returns (`select {}`, or `cond.Wait` with nobody left to wake it).  Each case
carries the state the call leaves behind. -/
inductive Result (σ α : Type) where
  | ret (a : α) (s : σ)
  | panic (msg : String) (s : σ)
  | block (s : σ)
deriving DecidableEq

/-- The state a call leaves behind. -/
def Result.state {σ α : Type} : Result σ α → σ
  | .ret _ s => s
  | .panic _ s => s
  | .block s => s

/-- The message of Go's runtime panic on a nil pointer dereference. -/
def nilDeref : String := "invalid memory address or nil pointer dereference"

section ops
variable {T : Type} [Inhabited T]

/-- The zero value of `node[T]`. -/
def zeroNode : node T := ⟨default, none⟩

/-- Read the node at address `a`. -/
def rd (st : List (node T)) (a : Nat) : node T := (st[a]?).getD zeroNode

/-- The assignment `n.data = v` for the node at address `a`. -/
def setData (st : List (node T)) (a : Nat) (v : T) : List (node T) :=
  st.set a { rd st a with data := v }

/-- The assignment `n.next = p` for the node at address `a`. -/
def setNext (st : List (node T)) (a : Nat) (p : Option Nat) : List (node T) :=
  st.set a { rd st a with next := p }

/-- The function `New`: a fresh channel with its mutex installed. -/
def New : Option (Chan T) :=
  some { L := some false, store := [], head := none, tail := none, free := none,
         freed := 0, closed := false }

/-- The method `isNil`: `ch == nil || ch.cond.L == nil`. -/
def isNil (ch : Option (Chan T)) : Bool :=
  match ch with
  | none => true
  | some c => c.L.isNone

/-- The lines `n := ch.free; if n != nil { ... } else { n = new(node[T]) }` of
`send`: the store, the node `n`, `ch.free` and `ch.freed` after them. -/
def sendNode (c : Chan T) : List (node T) × Nat × Option Nat × Int :=
  match c.free with
  | some a => (setNext c.store a none, a, (rd c.store a).next, wrapInt (c.freed - 1))
  | none => (c.store ++ [zeroNode], c.store.length, none, c.freed)

/-- The method `send`.  The mutex is taken on entry and the deferred `Unlock`
releases it on every exit, so each state below has the mutex free again. -/
def send (c : Chan T) (v : T) : Result (Chan T) Unit :=
  match c.L with
  | none => .panic nilDeref c
  | some true => .block c
  | some false =>
    if c.closed then .panic "send on closed channel" c
    else
      let r := sendNode c
      let n := r.2.1
      let st2 := setData r.1 n v
      match c.tail with
      | some t =>
        .ret () { c with store := setNext st2 t (some n), tail := some n,
                         free := r.2.2.1, freed := r.2.2.2 }
      | none =>
        .ret () { c with store := st2, head := some n, tail := some n,
                         free := r.2.2.1, freed := r.2.2.2 }

/-- The method `Send`: blocks for ever on a nil handle, otherwise `send` and
then `cond.Signal()`, which changes nothing in the channel state. -/
def Send (ch : Option (Chan T)) (v : T) : Result (Option (Chan T)) Unit :=
  if isNil ch then .block ch
  else
    match ch with
    | none => .panic nilDeref ch
    | some c =>
      match send c v with
      | .ret _ c1 => .ret () (some c1)
      | .panic msg c1 => .panic msg (some c1)
      | .block c1 => .block (some c1)

/-- The method `TryRecv`.  With no other goroutine running, `cond.Wait()` in the
loop `for !ch.closed && ch.head == nil` is never woken: the call blocks with
the mutex released. -/
def TryRecv (ch : Option (Chan T)) : Result (Option (Chan T)) (T × Bool) :=
  if isNil ch then .block ch
  else
    match ch with
    | none => .panic nilDeref ch
    | some c =>
      match c.L with
      | none => .panic nilDeref ch
      | some true => .block ch
      | some false =>
        if c.closed = false ∧ c.head = none then .block ch
        else if c.closed = true ∧ c.head = none then .ret (default, false) ch
        else
          match c.head with
          | none => .panic nilDeref ch
          | some n =>
            let v := (rd c.store n).data
            let st1 := setData c.store n default
            let head1 := (rd st1 n).next
            let tail1 := if head1 = none then none else c.tail
            if c.closed = false ∧ c.freed < maxFreeCache then
              .ret (v, true)
                (some { c with store := setNext st1 n c.free, head := head1, tail := tail1,
                               free := some n, freed := wrapInt (c.freed + 1) })
            else
              .ret (v, true)
                (some { c with store := setNext st1 n none, head := head1, tail := tail1 })

/-- The method `Recv`: `v, _ = ch.TryRecv()`. -/
def Recv (ch : Option (Chan T)) : Result (Option (Chan T)) T :=
  match TryRecv ch with
  | .ret (v, _) s => .ret v s
  | .panic msg s => .panic msg s
  | .block s => .block s

/-- The loop `for n := ch.free; n != nil; n = next` of `Close`, run for at most
`fuel` iterations; `none` when the fuel does not suffice. -/
def closeLoop : Nat → List (node T) → Option Nat → Option (List (node T))
  | _, st, none => some st
  | 0, _, some _ => none
  | fuel + 1, st, some n =>
    let next := (rd st n).next
    closeLoop fuel (setNext (setData st n default) n none) next

/-- The method `Close`.  `cond.Broadcast()` changes nothing in the channel
state.  The loop is given one iteration more than there are nodes, which is
always enough (`closeLoop_total`). -/
def Close (ch : Option (Chan T)) : Result (Option (Chan T)) Unit :=
  if isNil ch then .panic "close of nil channel" ch
  else
    match ch with
    | none => .panic nilDeref ch
    | some c =>
      match c.L with
      | none => .panic nilDeref ch
      | some true => .block ch
      | some false =>
        if c.closed then .panic "close of closed channel" ch
        else
          match closeLoop (c.store.length + 1) c.store c.free with
          | none => .block ch
          | some st =>
            .ret () (some { c with closed := true, store := st, free := none, freed := 0 })

/-! ## The queue held by a channel state -/

/-- The addresses met on the chain of `next` pointers that starts at `p`, at
most `fuel` of them. -/
def chain (st : List (node T)) : Nat → Option Nat → List Nat
  | 0, _ => []
  | _ + 1, none => []
  | fuel + 1, some a => a :: chain st fuel (rd st a).next

/-- The nodes of the live queue, from `head`. -/
def liveNodes (c : Chan T) : List Nat := chain c.store c.store.length c.head

/-- The nodes of the free-list, from `free`. -/
def freeNodes (c : Chan T) : List Nat := chain c.store c.store.length c.free

/-- The queued values, oldest first. -/
def queue (c : Chan T) : List T := (liveNodes c).map (fun a => (rd c.store a).data)

/-- The chain from `p` is exactly the allocated nodes `q` and ends in nil. -/
def IsList (st : List (node T)) : Option Nat → List Nat → Prop
  | p, [] => p = none
  | p, a :: as => p = some a ∧ a < st.length ∧ IsList st (rd st a).next as

/-- The state `c` represents the live queue `q` and the free-list `f`: `head`
and `free` start these two nil-terminated chains, which share no node and
repeat none, `tail` is the last live node, `freed` counts the free-list, which
holds at most `maxFreeCache` cleared nodes and is empty once the channel is
closed. -/
def Rep (c : Chan T) (q f : List Nat) : Prop :=
  IsList c.store c.head q ∧ IsList c.store c.free f ∧
  c.tail = q.getLast? ∧ (q ++ f).Nodup ∧
  c.freed = (f.length : Int) ∧ (f.length : Int) ≤ maxFreeCache ∧
  (c.closed = true → f = []) ∧
  ∀ a ∈ f, (rd c.store a).data = default

/-- The representation invariant of a constructed channel between two calls:
the mutex is free and the state represents some queue and free-list. -/
def Inv (c : Chan T) : Prop :=
  c.L = some false ∧ ∃ q f : List Nat, Rep c q f

/-- The allocated nodes whose `next` pointer is not nil. -/
def linked (st : List (node T)) : Finset Nat :=
  (Finset.range st.length).filter (fun a => (rd st a).next ≠ none)

/-! ## Sequences of calls -/

/-- One call on the channel. -/
inductive Op (T : Type) where
  | send (v : T)
  | tryRecv
  | recv
  | close
deriving DecidableEq

/-- What the caller of one call observes. -/
inductive Obs (T : Type) where
  | done
  | got (v : T) (ok : Bool)
  | val (v : T)
  | panicked (msg : String)
  | blocked
deriving DecidableEq

/-- Forget the returned value's type: what was observed, and the state left. -/
def observe {α : Type} (f : α → Obs T) : Result (Option (Chan T)) α → Obs T × Option (Chan T)
  | .ret a s => (f a, s)
  | .panic msg s => (.panicked msg, s)
  | .block s => (.blocked, s)

/-- Make one call. -/
def call (ch : Option (Chan T)) : Op T → Obs T × Option (Chan T)
  | .send v => observe (fun _ => .done) (Send ch v)
  | .tryRecv => observe (fun r => .got r.1 r.2) (TryRecv ch)
  | .recv => observe (fun v => .val v) (Recv ch)
  | .close => observe (fun _ => .done) (Close ch)

/-- Make the calls of `ops` one after the other.  A call that panics (and is
recovered) or blocks leaves its state to the calls that follow. -/
def run (ch : Option (Chan T)) : List (Op T) → List (Obs T) × Option (Chan T)
  | [] => ([], ch)
  | o :: ops =>
    let r := call ch o
    let rest := run r.2 ops
    (r.1 :: rest.1, rest.2)

/-- The channel states that some sequence of calls on a fresh channel leaves. -/
def Reachable (c : Chan T) : Prop := ∃ ops : List (Op T), (run New ops).2 = some c

/-! ## The values that go into and come out of the channel -/

/-- The value that one call takes out of the queue: the value of a `TryRecv`
that returns `ok = true`, or of a `Recv` whose `TryRecv` does. -/
def recvValue (ch : Option (Chan T)) : Op T → List T
  | .tryRecv | .recv =>
    match TryRecv ch with
    | .ret (v, true) _ => [v]
    | _ => []
  | _ => []

/-- The value that one call puts into the queue: the value of a `Send` that
returns normally. -/
def sentValue (ch : Option (Chan T)) : Op T → List T
  | .send v =>
    match Send ch v with
    | .ret _ _ => [v]
    | _ => []
  | _ => []

/-- The values returned by the successful receives of `ops`, in order. -/
def received (ch : Option (Chan T)) : List (Op T) → List T
  | [] => []
  | o :: ops => recvValue ch o ++ received (call ch o).2 ops

/-- The values of the `Send` calls of `ops` that return normally, in order. -/
def sent (ch : Option (Chan T)) : List (Op T) → List T
  | [] => []
  | o :: ops => sentValue ch o ++ sent (call ch o).2 ops

/-! ## Sample states -/

/-- The open channel left by `Send(7); Send(9); TryRecv(); Send(11)` on a fresh
channel: 9 and 11 are queued, and the node that held 7 has been used again. -/
def sampleOpen : Chan Nat :=
  { L := some false, store := [⟨11, none⟩, ⟨9, some 0⟩], head := some 1, tail := some 0,
    free := none, freed := 0, closed := false }

/-- The closed channel left by `Send(7); Send(9); Close()` on a fresh channel. -/
def sampleClosed : Chan Nat :=
  { L := some false, store := [⟨7, some 1⟩, ⟨9, none⟩], head := some 0, tail := some 1,
    free := none, freed := 0, closed := true }

/-- The closed and empty channel left by `Close()` on a fresh channel. -/
def sampleDrained : Chan Nat :=
  { L := some false, store := [], head := none, tail := none, free := none, freed := 0,
    closed := true }

/-- The open channel left by `Send(7); TryRecv()` on a fresh channel: nothing
is queued and the node that held 7 is on the free-list, cleared. -/
def sampleRecycled : Chan Nat :=
  { L := some false, store := [⟨0, none⟩], head := none, tail := none, free := some 0,
    freed := 1, closed := false }

/-- The zero value of `Chan[int]`, not built by `New`: its locker is nil. -/
def sampleInert : Chan Nat :=
  { L := none, store := [], head := none, tail := none, free := none, freed := 0,
    closed := false }

/-! ## Native channels and the helpers of `chans.go` -/

/-- The state of a native Go channel made by `make(chan T, cap)`: the buffered
values, oldest first, the values of the goroutines blocked in a send, oldest
first, and whether the channel has been closed.  A nil channel is `none`. -/
structure GoChan (T : Type) where
  cap : Nat
  buf : List T
  sendq : List T
  closed : Bool
deriving DecidableEq

/-- The receive case of a `select` with a `default` case.  `none` stands for the
`default` case being taken.  A nil channel is never ready; a closed channel
with an empty buffer yields the zero value and false; an open channel with a
blocked sender takes the oldest buffered value and lets the sender put its
value in the buffer, or takes the sender's value directly when nothing is
buffered; otherwise the oldest buffered value is taken when there is one. -/
def recvNow (ch : Option (GoChan T)) : Option (T × Bool) × Option (GoChan T) :=
  match ch with
  | none => (none, ch)
  | some c =>
    match c.closed, c.sendq, c.buf with
    | true, _, [] => (some (default, false), ch)
    | false, s :: ss, [] => (some (s, true), some { c with sendq := ss })
    | false, s :: ss, v :: rest =>
      (some (v, true), some { c with buf := rest ++ [s], sendq := ss })
    | _, _, v :: rest => (some (v, true), some { c with buf := rest })
    | false, [], [] => (none, ch)

/-- The builtin `close`: it panics on a nil and on a closed channel; the
goroutines blocked in a send leave the channel (they panic on their own). -/
def close (ch : Option (GoChan T)) : Result (Option (GoChan T)) Unit :=
  match ch with
  | none => .panic "close of nil channel" ch
  | some c =>
    if c.closed then .panic "close of closed channel" ch
    else .ret () (some { c with closed := true, sendq := [] })

/-- The function `Closed` of `chans.go`, with the channel it leaves. -/
def Closed (ch : Option (GoChan T)) : Bool × Option (GoChan T) :=
  match recvNow ch with
  | (some (_, ok), s) => (!ok, s)
  | (none, s) => (false, s)

/-- The function `CloseOnce` of `chans.go`. -/
def CloseOnce (ch : Option (GoChan T)) : Result (Option (GoChan T)) Unit :=
  let r := Closed ch
  if !r.1 then close r.2 else .ret () r.2

/-- The function `Done` of `chans.go`. -/
def Done (done : Option (GoChan Unit)) : Bool × Option (GoChan Unit) :=
  Closed done

/-- A closed native channel that still has the value 7 buffered. -/
def nativeClosedBuffered : GoChan Nat :=
  { cap := 1, buf := [7], sendq := [], closed := true }

/-- An open native channel of capacity 2 with the values 1 and 2 buffered. -/
def nativeTwoBuffered : GoChan Nat :=
  { cap := 2, buf := [1, 2], sendq := [], closed := false }

/-- An open, unbuffered native channel with nothing pending, as `make(chan T)`
returns it. -/
def nativeFresh : GoChan Nat :=
  { cap := 0, buf := [], sendq := [], closed := false }

end ops

section lemmas
variable {T : Type} [Inhabited T]

/-! ## Reading the node store after an assignment -/

theorem rd_set (st : List (node T)) (a b : Nat) (x : node T) :
    rd (st.set a x) b = if a = b ∧ a < st.length then x else rd st b := by
  unfold rd
  rw [List.getElem?_set]
  by_cases hab : a = b
  · subst hab
    by_cases hlt : a < st.length
    · simp [hlt]
    · have hnone : st[a]? = none := List.getElem?_eq_none (Nat.le_of_not_lt hlt)
      simp [hlt, hnone]
  · simp [hab]

theorem length_setData (st : List (node T)) (a : Nat) (v : T) :
    (setData st a v).length = st.length := by
  simp [setData]

theorem length_setNext (st : List (node T)) (a : Nat) (p : Option Nat) :
    (setNext st a p).length = st.length := by
  simp [setNext]

theorem rd_setData_next (st : List (node T)) (a b : Nat) (v : T) :
    (rd (setData st a v) b).next = (rd st b).next := by
  unfold setData
  rw [rd_set]
  split
  · rename_i h
    rw [h.1]
  · rfl

theorem rd_setData_data_self (st : List (node T)) (a : Nat) (v : T) (h : a < st.length) :
    (rd (setData st a v) a).data = v := by
  unfold setData
  rw [rd_set]
  simp [h]

theorem rd_setData_data_ne (st : List (node T)) (a b : Nat) (v : T) (h : b ≠ a) :
    (rd (setData st a v) b).data = (rd st b).data := by
  unfold setData
  rw [rd_set]
  have : ¬ (a = b ∧ a < st.length) := fun hh => h hh.1.symm
  simp [this]

theorem rd_setNext_data (st : List (node T)) (a b : Nat) (p : Option Nat) :
    (rd (setNext st a p) b).data = (rd st b).data := by
  unfold setNext
  rw [rd_set]
  split
  · rename_i h
    rw [h.1]
  · rfl

theorem rd_setNext_next_self (st : List (node T)) (a : Nat) (p : Option Nat)
    (h : a < st.length) : (rd (setNext st a p) a).next = p := by
  unfold setNext
  rw [rd_set]
  simp [h]

theorem rd_setNext_next_ne (st : List (node T)) (a b : Nat) (p : Option Nat) (h : b ≠ a) :
    (rd (setNext st a p) b).next = (rd st b).next := by
  unfold setNext
  rw [rd_set]
  have : ¬ (a = b ∧ a < st.length) := fun hh => h hh.1.symm
  simp [this]

theorem rd_append_lt (st : List (node T)) (x : node T) (b : Nat) (h : b < st.length) :
    rd (st ++ [x]) b = rd st b := by
  unfold rd
  rw [List.getElem?_append_left h]

theorem rd_append_length (st : List (node T)) (x : node T) :
    rd (st ++ [x]) st.length = x := by
  unfold rd
  simp

/-! ## Chains of nodes -/

/-- A chain survives any change of the store that keeps its nodes allocated and
their `next` pointers as they were. -/
theorem IsList.frame {st st1 : List (node T)} :
    ∀ (q : List Nat) (p : Option Nat), IsList st p q →
      (∀ a ∈ q, a < st1.length ∧ (rd st1 a).next = (rd st a).next) → IsList st1 p q
  | [], _, h, _ => h
  | a :: as, p, h, hf => by
    obtain ⟨hp, _, hrest⟩ := h
    have ha := hf a (List.mem_cons_self a as)
    refine ⟨hp, ha.1, ?_⟩
    rw [ha.2]
    exact IsList.frame as _ hrest (fun b hb => hf b (List.mem_cons_of_mem a hb))

theorem IsList.lt_length {st : List (node T)} :
    ∀ (q : List Nat) (p : Option Nat), IsList st p q → ∀ a ∈ q, a < st.length
  | [], _, _, a, ha => by simp at ha
  | b :: bs, p, h, a, ha => by
    obtain ⟨_, hb, hrest⟩ := h
    rcases List.mem_cons.mp ha with rfl | hmem
    · exact hb
    · exact IsList.lt_length bs _ hrest a hmem

/-- Linking a node `n` behind the last node `t` of a chain appends `n` to it. -/
theorem IsList.snoc {st st1 : List (node T)} (n t : Nat) (hn : n < st1.length)
    (hnn : (rd st1 n).next = none) (ht : (rd st1 t).next = some n) :
    ∀ (q : List Nat) (p : Option Nat), IsList st p q → q.Nodup → q.getLast? = some t →
      (∀ a ∈ q, a < st1.length ∧ (a ≠ t → (rd st1 a).next = (rd st a).next)) →
      IsList st1 p (q ++ [n])
  | [], _, _, _, hl, _ => by simp at hl
  | [a], p, h, _, hl, hf => by
    obtain ⟨hp, _, _⟩ := h
    have hat : a = t := by simpa using hl
    subst hat
    exact ⟨hp, (hf a (by simp)).1, by rw [ht]; exact ⟨rfl, hn, hnn⟩⟩
  | a :: b :: bs, p, h, hnd, hl, hf => by
    obtain ⟨hp, _, hrest⟩ := h
    have hl1 : (b :: bs).getLast? = some t := by
      rw [List.getLast?_cons_cons] at hl
      exact hl
    have htmem : t ∈ b :: bs := List.mem_of_getLast?_eq_some hl1
    have hat : a ≠ t := by
      intro hEq
      subst hEq
      exact (List.nodup_cons.mp hnd).1 htmem
    have ha := hf a (List.mem_cons_self a _)
    refine ⟨hp, ha.1, ?_⟩
    rw [ha.2 hat]
    exact IsList.snoc n t hn hnn ht (b :: bs) _ hrest (List.nodup_cons.mp hnd).2 hl1
      (fun c hc => hf c (List.mem_cons_of_mem a hc))

/-- Walking the store with enough fuel finds the chain. -/
theorem chain_eq_of_isList {st : List (node T)} :
    ∀ (q : List Nat) (p : Option Nat) (fuel : Nat), IsList st p q → q.length ≤ fuel →
      chain st fuel p = q
  | [], p, fuel, h, _ => by
    have hp : p = none := h
    subst hp
    cases fuel <;> rfl
  | a :: as, p, 0, _, hlen => by simp at hlen
  | a :: as, p, fuel + 1, h, hlen => by
    obtain ⟨hp, _, hrest⟩ := h
    subst hp
    have hlen1 : as.length ≤ fuel := by simpa using hlen
    show a :: chain st fuel (rd st a).next = a :: as
    rw [chain_eq_of_isList as _ fuel hrest hlen1]

/-- A list of distinct allocated addresses is no longer than the store. -/
theorem length_le_of_nodup_lt (q : List Nat) (n : Nat) (hnd : q.Nodup)
    (hlt : ∀ a ∈ q, a < n) : q.length ≤ n := by
  have hsub : q.toFinset ⊆ Finset.range n := by
    intro a ha
    exact Finset.mem_range.mpr (hlt a (List.mem_toFinset.mp ha))
  have hcard := Finset.card_le_card hsub
  rw [List.toFinset_card_of_nodup hnd, Finset.card_range] at hcard
  exact hcard

end lemmas

section steps
variable {T : Type} [Inhabited T]

/-! ## One call on a well-formed state -/

theorem wrapInt_eq (x : Int) (h1 : -9223372036854775808 ≤ x) (h2 : x < 9223372036854775808) :
    wrapInt x = x := by
  unfold wrapInt
  omega

theorem rd_setNext_ne (st : List (node T)) (a b : Nat) (p : Option Nat) (h : b ≠ a) :
    rd (setNext st a p) b = rd st b := by
  unfold setNext
  rw [rd_set]
  have : ¬ (a = b ∧ a < st.length) := fun hh => h hh.1.symm
  simp [this]

theorem rd_append_ne (st : List (node T)) (x : node T) (b : Nat) (h : b ≠ st.length) :
    rd (st ++ [x]) b = rd st b := by
  rcases Nat.lt_or_gt_of_ne h with hlt | hgt
  · exact rd_append_lt st x b hlt
  · unfold rd
    have h1 : (st ++ [x])[b]? = none := List.getElem?_eq_none (by simp; omega)
    have h2 : st[b]? = none := List.getElem?_eq_none (by omega)
    rw [h1, h2]

/-- The node that `send` takes: the first node of the free-list when there is
one, a newly allocated node otherwise.  It is allocated, linked to nothing and
in neither chain, and no other node has changed. -/
theorem sendNode_spec (c : Chan T) (q f : List Nat) (hr : Rep c q f) :
    (sendNode c).2.1 < (sendNode c).1.length ∧
    c.store.length ≤ (sendNode c).1.length ∧
    (rd (sendNode c).1 (sendNode c).2.1).next = none ∧
    (sendNode c).2.1 ∉ q ∧ (sendNode c).2.1 ∉ f.tail ∧
    (∀ b, b ≠ (sendNode c).2.1 → rd (sendNode c).1 b = rd c.store b) ∧
    IsList c.store (sendNode c).2.2.1 f.tail ∧
    (sendNode c).2.2.2 = (f.tail.length : Int) := by
  obtain ⟨hq, hf, _, hnd, hfreed, hmax, _, _⟩ := hr
  cases f with
  | nil =>
    have hfree : c.free = none := hf
    have hn : sendNode c = (c.store ++ [zeroNode], c.store.length, none, c.freed) := by
      unfold sendNode; rw [hfree]
    rw [hn]
    refine ⟨by simp, by simp, ?_, ?_, by simp, ?_, rfl, ?_⟩
    · show (rd (c.store ++ [zeroNode]) c.store.length).next = none
      rw [rd_append_length]; rfl
    · intro hmem
      exact Nat.lt_irrefl _ (IsList.lt_length q _ hq _ hmem)
    · intro b hb
      exact rd_append_ne c.store zeroNode b hb
    · simpa using hfreed
  | cons a f1 =>
    obtain ⟨hfree, ha, hrest⟩ := hf
    have hn : sendNode c =
        (setNext c.store a none, a, (rd c.store a).next, wrapInt (c.freed - 1)) := by
      unfold sendNode; rw [hfree]
    rw [hn]
    have hnd1 : (a :: f1).Nodup := (List.nodup_append.mp hnd).2.1
    refine ⟨?_, ?_, ?_, ?_, ?_, ?_, hrest, ?_⟩
    · show a < (setNext c.store a none).length
      rw [length_setNext]; exact ha
    · show c.store.length ≤ (setNext c.store a none).length
      rw [length_setNext]
    · exact rd_setNext_next_self c.store a none ha
    · intro hmem
      exact (List.nodup_append.mp hnd).2.2 hmem (List.mem_cons_self a f1)
    · exact (List.nodup_cons.mp hnd1).1
    · intro b hb
      exact rd_setNext_ne c.store a b none hb
    · show wrapInt (c.freed - 1) = ((a :: f1).tail.length : Int)
      have hlen : c.freed = (f1.length : Int) + 1 := by simpa using hfreed
      have hmax1 : (f1.length : Int) + 1 ≤ 1000 := by
        have := hmax; simp [maxFreeCache] at this; exact this
      rw [wrapInt_eq _ (by omega) (by omega)]
      simp [hlen]

/-- On a well-formed open channel `send` returns, having appended one node that
holds `v` to the live queue and taken that node from the free-list when there
was one. -/
theorem send_spec (c : Chan T) (v : T) (q f : List Nat) (hL : c.L = some false)
    (hc : c.closed = false) (hr : Rep c q f) :
    ∃ (c1 : Chan T) (n : Nat), send c v = .ret () c1 ∧ c1.L = some false ∧
      c1.closed = false ∧ Rep c1 (q ++ [n]) f.tail ∧ n ∉ q ∧
      (rd c1.store n).data = v ∧ ∀ a ∈ q, (rd c1.store a).data = (rd c.store a).data := by
  obtain ⟨hn, hlen, hnn, hnq, hnf, hframe, hfree1, hfreed1⟩ := sendNode_spec c q f hr
  obtain ⟨hq, hf, htail, hnd, _, hmax, _, hzero⟩ := hr
  have hqlt := IsList.lt_length q _ hq
  have hflt := IsList.lt_length f _ hf
  have hndq : q.Nodup := (List.nodup_append.mp hnd).1
  have hndf : f.Nodup := (List.nodup_append.mp hnd).2.1
  have hdisj := (List.nodup_append.mp hnd).2.2
  have htl : ∀ a ∈ f.tail, a ∈ f := fun a ha => List.mem_of_mem_tail ha
  have hnd1 : (q ++ [(sendNode c).2.1] ++ f.tail).Nodup := by
    rw [List.append_assoc]
    refine List.nodup_append.mpr ⟨hndq, ?_, ?_⟩
    · exact List.nodup_cons.mpr ⟨hnf, hndf.sublist (List.tail_sublist f)⟩
    · intro a haq haf
      rcases List.mem_cons.mp haf with rfl | hmem
      · exact hnq haq
      · exact hdisj haq (htl a hmem)
  have hmax1 : (f.tail.length : Int) ≤ maxFreeCache := by
    have : f.tail.length ≤ f.length := by simp
    omega
  rcases List.eq_nil_or_concat q with hqnil | ⟨q0, t, hqt⟩
  · -- the queue is empty: `ch.head = n; ch.tail = n`
    subst hqnil
    have hhead : c.head = none := hq
    have htail0 : c.tail = none := by simpa using htail
    refine ⟨{ c with store := setData (sendNode c).1 (sendNode c).2.1 v,
                     head := some (sendNode c).2.1, tail := some (sendNode c).2.1,
                     free := (sendNode c).2.2.1, freed := (sendNode c).2.2.2 },
            (sendNode c).2.1, ?_, hL, hc, ?_, hnq, ?_, ?_⟩
    · unfold send
      simp only [hL, hc, htail0]
      rfl
    · refine ⟨?_, ?_, ?_, hnd1, hfreed1, hmax1, ?_, ?_⟩
      · refine ⟨rfl, ?_, ?_⟩
        · show _ < (setData _ _ _).length
          rw [length_setData]; exact hn
        · show (rd (setData _ _ _) _).next = none
          rw [rd_setData_next]; exact hnn
      · refine IsList.frame f.tail _ hfree1 ?_
        intro a ha
        have han : a ≠ (sendNode c).2.1 := fun h => hnf (h ▸ ha)
        refine ⟨?_, ?_⟩
        · show a < (setData _ _ _).length
          rw [length_setData]
          exact Nat.lt_of_lt_of_le (hflt a (htl a ha)) hlen
        · show (rd (setData _ _ _) a).next = _
          rw [rd_setData_next, hframe a han]
      · simp
      · intro hcl
        have : c.closed = true := hcl
        rw [hc] at this
        exact absurd this (by simp)
      · intro a ha
        have han : a ≠ (sendNode c).2.1 := fun h => hnf (h ▸ ha)
        show (rd (setData _ _ _) a).data = default
        rw [rd_setData_data_ne _ _ _ _ han, hframe a han]
        exact hzero a (htl a ha)
    · show (rd (setData _ _ _) _).data = v
      exact rd_setData_data_self _ _ _ hn
    · intro a ha
      simp at ha
  · -- the queue ends in `t`: `ch.tail.next = n; ch.tail = n`
    have hlast : q.getLast? = some t := by rw [hqt]; simp
    have htail0 : c.tail = some t := by rw [htail, hlast]
    have htq : t ∈ q := List.mem_of_getLast?_eq_some hlast
    have htn : t ≠ (sendNode c).2.1 := fun h => hnq (h ▸ htq)
    have htlt : t < (setData (sendNode c).1 (sendNode c).2.1 v).length := by
      rw [length_setData]
      exact Nat.lt_of_lt_of_le (hqlt t htq) hlen
    refine ⟨{ c with store := setNext (setData (sendNode c).1 (sendNode c).2.1 v) t
                                (some (sendNode c).2.1),
                     tail := some (sendNode c).2.1,
                     free := (sendNode c).2.2.1, freed := (sendNode c).2.2.2 },
            (sendNode c).2.1, ?_, hL, hc, ?_, hnq, ?_, ?_⟩
    · unfold send
      simp only [hL, hc, htail0]
      rfl
    · refine ⟨?_, ?_, ?_, hnd1, hfreed1, hmax1, ?_, ?_⟩
      · refine IsList.snoc (sendNode c).2.1 t ?_ ?_ ?_ q _ hq hndq hlast ?_
        · show _ < (setNext _ _ _).length
          rw [length_setNext, length_setData]; exact hn
        · show (rd (setNext _ _ _) _).next = none
          rw [rd_setNext_next_ne _ _ _ _ (Ne.symm htn), rd_setData_next]; exact hnn
        · show (rd (setNext _ _ _) t).next = _
          exact rd_setNext_next_self _ _ _ htlt
        · intro a ha
          have han : a ≠ (sendNode c).2.1 := fun h => hnq (h ▸ ha)
          refine ⟨?_, ?_⟩
          · show a < (setNext _ _ _).length
            rw [length_setNext, length_setData]
            exact Nat.lt_of_lt_of_le (hqlt a ha) hlen
          · intro hat
            show (rd (setNext _ _ _) a).next = _
            rw [rd_setNext_next_ne _ _ _ _ hat, rd_setData_next, hframe a han]
      · refine IsList.frame f.tail _ hfree1 ?_
        intro a ha
        have han : a ≠ (sendNode c).2.1 := fun h => hnf (h ▸ ha)
        have hat : a ≠ t := fun h => hdisj htq (h ▸ htl a ha)
        refine ⟨?_, ?_⟩
        · show a < (setNext _ _ _).length
          rw [length_setNext, length_setData]
          exact Nat.lt_of_lt_of_le (hflt a (htl a ha)) hlen
        · show (rd (setNext _ _ _) a).next = _
          rw [rd_setNext_next_ne _ _ _ _ hat, rd_setData_next, hframe a han]
      · simp
      · intro hcl
        have : c.closed = true := hcl
        rw [hc] at this
        exact absurd this (by simp)
      · intro a ha
        have han : a ≠ (sendNode c).2.1 := fun h => hnf (h ▸ ha)
        show (rd (setNext _ _ _) a).data = default
        rw [rd_setNext_data, rd_setData_data_ne _ _ _ _ han, hframe a han]
        exact hzero a (htl a ha)
    · show (rd (setNext _ _ _) _).data = v
      rw [rd_setNext_data]
      exact rd_setData_data_self _ _ _ hn
    · intro a ha
      have han : a ≠ (sendNode c).2.1 := fun h => hnq (h ▸ ha)
      show (rd (setNext _ _ _) a).data = _
      rw [rd_setNext_data, rd_setData_data_ne _ _ _ _ han, hframe a han]

theorem rd_setData_ne (st : List (node T)) (a b : Nat) (v : T) (h : b ≠ a) :
    rd (setData st a v) b = rd st b := by
  unfold setData
  rw [rd_set]
  have : ¬ (a = b ∧ a < st.length) := fun hh => h hh.1.symm
  simp [this]

/-- The receive path of `TryRecv` once `head` is known not to be nil. -/
theorem TryRecv_head (c : Chan T) (n : Nat) (hL : c.L = some false) (hh : c.head = some n) :
    TryRecv (some c) =
      if c.closed = false ∧ c.freed < maxFreeCache then
        .ret ((rd c.store n).data, true)
          (some { c with store := setNext (setData c.store n default) n c.free,
                         head := (rd (setData c.store n default) n).next,
                         tail := if (rd (setData c.store n default) n).next = none then none
                                 else c.tail,
                         free := some n, freed := wrapInt (c.freed + 1) })
      else
        .ret ((rd c.store n).data, true)
          (some { c with store := setNext (setData c.store n default) n none,
                         head := (rd (setData c.store n default) n).next,
                         tail := if (rd (setData c.store n default) n).next = none then none
                                 else c.tail }) := by
  unfold TryRecv
  simp only [isNil, hL, hh]
  simp

/-- On a well-formed open channel with nothing queued `TryRecv` waits. -/
theorem TryRecv_empty_open (c : Chan T) (f : List Nat) (hL : c.L = some false)
    (hc : c.closed = false) (hr : Rep c [] f) : TryRecv (some c) = .block (some c) := by
  have hh : c.head = none := hr.1
  unfold TryRecv
  simp [isNil, hL, hh, hc]

/-- On a well-formed closed channel with nothing queued `TryRecv` returns the
zero value and false, and changes nothing. -/
theorem TryRecv_empty_closed (c : Chan T) (f : List Nat) (hL : c.L = some false)
    (hc : c.closed = true) (hr : Rep c [] f) :
    TryRecv (some c) = .ret (default, false) (some c) := by
  have hh : c.head = none := hr.1
  unfold TryRecv
  simp [isNil, hL, hh, hc]

/-- On a well-formed channel with a queued value `TryRecv` returns the value of
the first live node and true; that node leaves the live queue and goes to the
front of the free-list when the channel is open and the free-list is not full. -/
theorem TryRecv_spec (c : Chan T) (n : Nat) (q f : List Nat) (hL : c.L = some false)
    (hr : Rep c (n :: q) f) :
    ∃ c1 : Chan T, TryRecv (some c) = .ret ((rd c.store n).data, true) (some c1) ∧
      c1.L = some false ∧ c1.closed = c.closed ∧
      Rep c1 q (if c.closed = false ∧ c.freed < maxFreeCache then n :: f else f) ∧
      ∀ a ∈ q, (rd c1.store a).data = (rd c.store a).data := by
  obtain ⟨hq, hf, htail, hnd, hfreed, hmax, hcl, hzero⟩ := hr
  obtain ⟨hh, hn, hrest⟩ := hq
  have hqlt := IsList.lt_length q _ hrest
  have hflt := IsList.lt_length f _ hf
  have hnd' : (n :: (q ++ f)).Nodup := hnd
  have hnqf : n ∉ q ++ f := (List.nodup_cons.mp hnd').1
  have hndqf : (q ++ f).Nodup := (List.nodup_cons.mp hnd').2
  have hnq : n ∉ q := fun h => hnqf (List.mem_append_left f h)
  have hnf : n ∉ f := fun h => hnqf (List.mem_append_right q h)
  have hnext : (rd (setData c.store n default) n).next = (rd c.store n).next :=
    rd_setData_next _ _ _ _
  have htail1 : (if (rd (setData c.store n default) n).next = none then none else c.tail)
      = q.getLast? := by
    rw [hnext]
    cases q with
    | nil =>
      have : (rd c.store n).next = none := hrest
      simp [this]
    | cons b bs =>
      have : (rd c.store n).next = some b := hrest.1
      rw [this, htail]
      simp [List.getLast?_cons_cons]
  rw [TryRecv_head c n hL hh]
  by_cases hcond : c.closed = false ∧ c.freed < maxFreeCache
  · rw [if_pos hcond, if_pos hcond]
    refine ⟨_, rfl, hL, rfl, ?_, ?_⟩
    · refine ⟨?_, ?_, htail1, ?_, ?_, ?_, ?_, ?_⟩
      · show IsList (setNext _ _ _) (rd (setData c.store n default) n).next q
        rw [hnext]
        refine IsList.frame q _ hrest ?_
        intro a ha
        have han : a ≠ n := fun h => hnq (h ▸ ha)
        refine ⟨by rw [length_setNext, length_setData]; exact hqlt a ha, ?_⟩
        rw [rd_setNext_next_ne _ _ _ _ han, rd_setData_next]
      · refine ⟨rfl, ?_, ?_⟩
        · show n < (setNext _ _ _).length
          rw [length_setNext, length_setData]; exact hn
        · show IsList (setNext _ _ _) (rd (setNext _ _ _) n).next f
          rw [rd_setNext_next_self _ _ _ (by rw [length_setData]; exact hn)]
          refine IsList.frame f _ hf ?_
          intro a ha
          have han : a ≠ n := fun h => hnf (h ▸ ha)
          refine ⟨by rw [length_setNext, length_setData]; exact hflt a ha, ?_⟩
          rw [rd_setNext_next_ne _ _ _ _ han, rd_setData_next]
      · have hperm : (q ++ n :: f).Perm (n :: (q ++ f)) := List.perm_middle
        exact hperm.nodup_iff.mpr hnd'
      · show wrapInt (c.freed + 1) = ((n :: f).length : Int)
        have h1 : c.freed < 1000 := hcond.2
        rw [wrapInt_eq _ (by omega) (by omega), hfreed]
        simp
      · show ((n :: f).length : Int) ≤ maxFreeCache
        have h1 : c.freed < maxFreeCache := hcond.2
        simp only [List.length_cons, Nat.cast_add, Nat.cast_one]
        omega
      · intro h
        have h2 : c.closed = true := h
        rw [hcond.1] at h2
        exact absurd h2 (by simp)
      · intro a ha
        show (rd (setNext _ _ _) a).data = default
        rw [rd_setNext_data]
        rcases List.mem_cons.mp ha with rfl | hmem
        · exact rd_setData_data_self _ _ _ hn
        · have han : a ≠ n := fun h => hnf (h ▸ hmem)
          rw [rd_setData_data_ne _ _ _ _ han]
          exact hzero a hmem
    · intro a ha
      have han : a ≠ n := fun h => hnq (h ▸ ha)
      show (rd (setNext _ _ _) a).data = _
      rw [rd_setNext_data, rd_setData_data_ne _ _ _ _ han]
  · rw [if_neg hcond, if_neg hcond]
    refine ⟨_, rfl, hL, rfl, ?_, ?_⟩
    · refine ⟨?_, ?_, htail1, hndqf, hfreed, hmax, hcl, ?_⟩
      · show IsList (setNext _ _ _) (rd (setData c.store n default) n).next q
        rw [hnext]
        refine IsList.frame q _ hrest ?_
        intro a ha
        have han : a ≠ n := fun h => hnq (h ▸ ha)
        refine ⟨by rw [length_setNext, length_setData]; exact hqlt a ha, ?_⟩
        rw [rd_setNext_next_ne _ _ _ _ han, rd_setData_next]
      · show IsList (setNext _ _ _) c.free f
        refine IsList.frame f _ hf ?_
        intro a ha
        have han : a ≠ n := fun h => hnf (h ▸ ha)
        refine ⟨by rw [length_setNext, length_setData]; exact hflt a ha, ?_⟩
        rw [rd_setNext_next_ne _ _ _ _ han, rd_setData_next]
      · intro a ha
        have han : a ≠ n := fun h => hnf (h ▸ ha)
        show (rd (setNext _ _ _) a).data = default
        rw [rd_setNext_data, rd_setData_data_ne _ _ _ _ han]
        exact hzero a ha
    · intro a ha
      have han : a ≠ n := fun h => hnq (h ▸ ha)
      show (rd (setNext _ _ _) a).data = _
      rw [rd_setNext_data, rd_setData_data_ne _ _ _ _ han]

/-! ## The loop of `Close` -/

theorem closeLoop_nil (fuel : Nat) (st : List (node T)) :
    closeLoop fuel st none = some st := by
  cases fuel <;> rfl

theorem rd_next_of_not_lt (st : List (node T)) (a : Nat) (h : ¬ a < st.length) :
    (rd st a).next = none := by
  unfold rd
  rw [List.getElem?_eq_none (Nat.le_of_not_lt h)]
  rfl

/-- Each iteration that goes on clears one more `next` pointer, so the loop
ends within as many iterations as there are linked nodes, plus one. -/
theorem closeLoop_fuel :
    ∀ (k : Nat) (st : List (node T)) (p : Option Nat), (linked st).card ≤ k →
      ∃ st1, closeLoop (k + 1) st p = some st1
  | k, st, none, _ => ⟨st, closeLoop_nil _ st⟩
  | k, st, some a, hk => by
    show ∃ st1, closeLoop k (setNext (setData st a default) a none) (rd st a).next = some st1
    cases hnext : (rd st a).next with
    | none => exact ⟨_, closeLoop_nil _ _⟩
    | some b =>
      have ha : a < st.length := by
        by_contra hlt
        rw [rd_next_of_not_lt st a hlt] at hnext
        exact absurd hnext (by simp)
      have hmem : a ∈ linked st := by
        unfold linked
        rw [Finset.mem_filter, Finset.mem_range]
        exact ⟨ha, by rw [hnext]; simp⟩
      have hsub : linked (setNext (setData st a default) a none) ⊆ (linked st).erase a := by
        intro x hx
        unfold linked at hx
        rw [Finset.mem_filter, Finset.mem_range, length_setNext, length_setData] at hx
        have hxa : x ≠ a := by
          intro hEq
          subst hEq
          exact hx.2 (rd_setNext_next_self _ _ _ (by rw [length_setData]; exact ha))
        rw [rd_setNext_next_ne _ _ _ _ hxa, rd_setData_next] at hx
        rw [Finset.mem_erase]
        refine ⟨hxa, ?_⟩
        unfold linked
        rw [Finset.mem_filter, Finset.mem_range]
        exact hx
      have hcard := Finset.card_le_card hsub
      rw [Finset.card_erase_of_mem hmem] at hcard
      have hpos : 0 < (linked st).card := Finset.card_pos.mpr ⟨a, hmem⟩
      cases k with
      | zero => omega
      | succ k1 => exact closeLoop_fuel k1 _ (some b) (by omega)

/-- The loop of `Close` ends on every store, whatever its shape. -/
theorem closeLoop_total (st : List (node T)) (p : Option Nat) :
    ∃ st1, closeLoop (st.length + 1) st p = some st1 := by
  refine closeLoop_fuel st.length st p ?_
  unfold linked
  calc ((Finset.range st.length).filter (fun a => (rd st a).next ≠ none)).card
      ≤ (Finset.range st.length).card := Finset.card_filter_le _ _
    _ = st.length := Finset.card_range _

/-- On a nil-terminated chain of distinct nodes the loop clears exactly the
nodes of the chain and touches no other node. -/
theorem closeLoop_spec :
    ∀ (f : List Nat) (p : Option Nat) (st : List (node T)) (fuel : Nat),
      IsList st p f → f.Nodup → f.length ≤ fuel →
      ∃ st1, closeLoop fuel st p = some st1 ∧ st1.length = st.length ∧
        (∀ b, b ∉ f → rd st1 b = rd st b) ∧ ∀ b ∈ f, rd st1 b = zeroNode
  | [], p, st, fuel, h, _, _ => by
    have hp : p = none := h
    subst hp
    exact ⟨st, closeLoop_nil _ st, rfl, fun _ _ => rfl, fun b hb => by simp at hb⟩
  | a :: f1, p, st, 0, _, _, hlen => by simp at hlen
  | a :: f1, p, st, fuel + 1, h, hnd, hlen => by
    obtain ⟨hp, ha, hrest⟩ := h
    subst hp
    have haf : a ∉ f1 := (List.nodup_cons.mp hnd).1
    have hlt := IsList.lt_length f1 _ hrest
    have hrest1 : IsList (setNext (setData st a default) a none) (rd st a).next f1 := by
      refine IsList.frame f1 _ hrest ?_
      intro b hb
      have hba : b ≠ a := fun h => haf (h ▸ hb)
      refine ⟨by rw [length_setNext, length_setData]; exact hlt b hb, ?_⟩
      rw [rd_setNext_next_ne _ _ _ _ hba, rd_setData_next]
    obtain ⟨st1, hrun, hlen1, hout, hin⟩ :=
      closeLoop_spec f1 _ _ fuel hrest1 (List.nodup_cons.mp hnd).2 (by simpa using hlen)
    refine ⟨st1, hrun, ?_, ?_, ?_⟩
    · rw [hlen1, length_setNext, length_setData]
    · intro b hb
      have hba : b ≠ a := fun h => hb (h ▸ List.mem_cons_self a f1)
      have hbf : b ∉ f1 := fun h => hb (List.mem_cons_of_mem a h)
      rw [hout b hbf, rd_setNext_ne _ _ _ _ hba, rd_setData_ne _ _ _ _ hba]
    · intro b hb
      rcases List.mem_cons.mp hb with rfl | hmem
      · rw [hout b haf]
        have h1 : (rd (setNext (setData st b default) b none) b).data = default := by
          rw [rd_setNext_data]
          exact rd_setData_data_self _ _ _ ha
        have h2 : (rd (setNext (setData st b default) b none) b).next = none :=
          rd_setNext_next_self _ _ _ (by rw [length_setData]; exact ha)
        cases hnode : rd (setNext (setData st b default) b none) b with
        | mk d nx =>
          rw [hnode] at h1 h2
          simp only at h1 h2
          subst h1 h2
          rfl
      · exact hin b hmem

/-- On a well-formed open channel `Close` returns: the channel is closed, the
free-list is gone, and no node outside the old free-list has changed. -/
theorem Close_spec (c : Chan T) (q f : List Nat) (hL : c.L = some false)
    (hc : c.closed = false) (hr : Rep c q f) :
    ∃ c1 : Chan T, Close (some c) = .ret () (some c1) ∧ c1.L = some false ∧
      c1.closed = true ∧ c1.free = none ∧ c1.freed = 0 ∧ c1.head = c.head ∧
      c1.tail = c.tail ∧ Rep c1 q [] ∧ ∀ a ∈ q, rd c1.store a = rd c.store a := by
  obtain ⟨hq, hf, htail, hnd, _, _, _, _⟩ := hr
  have hndf : f.Nodup := (List.nodup_append.mp hnd).2.1
  have hdisj := (List.nodup_append.mp hnd).2.2
  have hflen : f.length ≤ c.store.length + 1 :=
    Nat.le_succ_of_le (length_le_of_nodup_lt f _ hndf (IsList.lt_length f _ hf))
  obtain ⟨st1, hrun, hlen1, hout, _⟩ := closeLoop_spec f _ c.store _ hf hndf hflen
  have hkeep : ∀ a ∈ q, rd st1 a = rd c.store a :=
    fun a ha => hout a (fun haf => hdisj ha haf)
  refine ⟨{ c with closed := true, store := st1, free := none, freed := 0 },
    ?_, hL, rfl, rfl, rfl, rfl, rfl, ?_, hkeep⟩
  · unfold Close
    simp only [isNil, hL, hc, hrun]
    simp
  · refine ⟨?_, rfl, htail, ?_, by simp, by simp [maxFreeCache], fun _ => rfl, ?_⟩
    · refine IsList.frame q _ hq ?_
      intro a ha
      refine ⟨?_, by rw [hkeep a ha]⟩
      show a < st1.length
      rw [hlen1]
      exact IsList.lt_length q _ hq a ha
    · simpa using (List.nodup_append.mp hnd).1
    · intro a ha
      simp at ha

end steps

section runs
variable {T : Type} [Inhabited T]

/-! ## Well-formed states: the queue they hold and the calls on them -/

theorem liveNodes_of_rep (c : Chan T) (q f : List Nat) (hr : Rep c q f) :
    liveNodes c = q := by
  obtain ⟨hq, _, _, hnd, _⟩ := hr
  exact chain_eq_of_isList q _ _ hq
    (length_le_of_nodup_lt q _ (List.nodup_append.mp hnd).1 (IsList.lt_length q _ hq))

theorem freeNodes_of_rep (c : Chan T) (q f : List Nat) (hr : Rep c q f) :
    freeNodes c = f := by
  obtain ⟨_, hf, _, hnd, _⟩ := hr
  exact chain_eq_of_isList f _ _ hf
    (length_le_of_nodup_lt f _ (List.nodup_append.mp hnd).2.1 (IsList.lt_length f _ hf))

theorem queue_of_rep (c : Chan T) (q f : List Nat) (hr : Rep c q f) :
    queue c = q.map (fun a => (rd c.store a).data) := by
  unfold queue
  rw [liveNodes_of_rep c q f hr]

/-- The channel that `New` returns is well formed, open and empty. -/
theorem New_inv : ∃ c : Chan T, New = some c ∧ Inv c ∧ c.closed = false ∧ queue c = [] := by
  refine ⟨_, rfl, ⟨rfl, [], [], rfl, rfl, rfl, by simp, rfl, by simp [maxFreeCache],
    fun _ => rfl, fun a ha => by simp at ha⟩, rfl, rfl⟩

theorem Send_some (c : Chan T) (v : T) (c1 : Chan T) (hL : c.L = some false)
    (h : send c v = .ret () c1) : Send (some c) v = .ret () (some c1) := by
  unfold Send
  simp [isNil, hL, h]

/-- `Send` on a well-formed open channel returns and appends `v` to the queue. -/
theorem Send_inv (c : Chan T) (v : T) (h : Inv c) (hc : c.closed = false) :
    ∃ c1 : Chan T, Send (some c) v = .ret () (some c1) ∧ Inv c1 ∧ c1.closed = false ∧
      queue c1 = queue c ++ [v] := by
  obtain ⟨hL, q, f, hr⟩ := h
  obtain ⟨c1, n, hs, hL1, hc1, hr1, _, hv, hkeep⟩ := send_spec c v q f hL hc hr
  refine ⟨c1, Send_some c v c1 hL hs, ⟨hL1, _, _, hr1⟩, hc1, ?_⟩
  rw [queue_of_rep c1 _ _ hr1, queue_of_rep c q f hr, List.map_append]
  congr 1
  · exact List.map_congr_left hkeep
  · simp [hv]

/-- `Send` on a closed channel panics and changes nothing. -/
theorem Send_closed (c : Chan T) (v : T) (hL : c.L = some false) (hc : c.closed = true) :
    Send (some c) v = .panic "send on closed channel" (some c) := by
  unfold Send send
  simp [isNil, hL, hc]

/-- `Close` on a closed channel panics and changes nothing. -/
theorem Close_closed (c : Chan T) (hL : c.L = some false) (hc : c.closed = true) :
    Close (some c) = .panic "close of closed channel" (some c) := by
  unfold Close
  simp [isNil, hL, hc]

/-- `Close` on an open channel whose mutex is free returns, whatever the shape
of the node store. -/
theorem Close_open (c : Chan T) (hL : c.L = some false) (hc : c.closed = false) :
    ∃ c1 : Chan T, Close (some c) = .ret () (some c1) ∧ c1.closed = true := by
  obtain ⟨st1, hrun⟩ := closeLoop_total c.store c.free
  refine ⟨{ c with closed := true, store := st1, free := none, freed := 0 }, ?_, rfl⟩
  unfold Close
  simp only [isNil, hL, hc, hrun]
  simp

/-- `Close` on a well-formed open channel returns and keeps the queue. -/
theorem Close_inv (c : Chan T) (h : Inv c) (hc : c.closed = false) :
    ∃ c1 : Chan T, Close (some c) = .ret () (some c1) ∧ Inv c1 ∧ c1.closed = true ∧
      c1.free = none ∧ c1.freed = 0 ∧ c1.head = c.head ∧ c1.tail = c.tail ∧
      liveNodes c1 = liveNodes c ∧ freeNodes c1 = [] ∧ queue c1 = queue c := by
  obtain ⟨hL, q, f, hr⟩ := h
  obtain ⟨c1, hcl, hL1, hc1, hfree, hfreed, hhead, htail, hr1, hkeep⟩ :=
    Close_spec c q f hL hc hr
  refine ⟨c1, hcl, ⟨hL1, _, _, hr1⟩, hc1, hfree, hfreed, hhead, htail, ?_, ?_, ?_⟩
  · rw [liveNodes_of_rep c1 _ _ hr1, liveNodes_of_rep c q f hr]
  · exact freeNodes_of_rep c1 _ _ hr1
  · rw [queue_of_rep c1 _ _ hr1, queue_of_rep c q f hr]
    exact List.map_congr_left (fun a ha => by rw [hkeep a ha])

/-- The queue of a well-formed state is empty exactly when `head` is nil. -/
theorem queue_nil_iff (c : Chan T) (h : Inv c) : queue c = [] ↔ c.head = none := by
  obtain ⟨_, q, f, hr⟩ := h
  rw [queue_of_rep c q f hr]
  cases q with
  | nil => simpa using hr.1
  | cons a as =>
    have hh : c.head = some a := hr.1.1
    simp [hh]

/-- `TryRecv` on a well-formed channel with an empty queue: it waits when the
channel is open and returns the zero value and false when it is closed; the
state is the same in both cases. -/
theorem TryRecv_inv_nil (c : Chan T) (h : Inv c) (hq : queue c = []) :
    (c.closed = false → TryRecv (some c) = .block (some c)) ∧
    (c.closed = true → TryRecv (some c) = .ret (default, false) (some c)) := by
  have hh := (queue_nil_iff c h).mp hq
  obtain ⟨hL, _⟩ := h
  constructor
  · intro hc
    unfold TryRecv
    simp [isNil, hL, hh, hc]
  · intro hc
    unfold TryRecv
    simp [isNil, hL, hh, hc]

/-- `TryRecv` on a well-formed channel with a queued value returns the oldest
value and true, and leaves the other values queued in their order. -/
theorem TryRecv_inv_cons (c : Chan T) (v : T) (rest : List T) (h : Inv c)
    (hq : queue c = v :: rest) :
    ∃ c1 : Chan T, TryRecv (some c) = .ret (v, true) (some c1) ∧ Inv c1 ∧
      c1.closed = c.closed ∧ queue c1 = rest := by
  obtain ⟨hL, q, f, hr⟩ := h
  rw [queue_of_rep c q f hr] at hq
  cases q with
  | nil => simp at hq
  | cons n q1 =>
    obtain ⟨c1, hrecv, hL1, hc1, hr1, hkeep⟩ := TryRecv_spec c n q1 f hL hr
    have hv : (rd c.store n).data = v := by
      have := hq; simp only [List.map_cons, List.cons.injEq] at this; exact this.1
    have hrest : q1.map (fun a => (rd c.store a).data) = rest := by
      have := hq; simp only [List.map_cons, List.cons.injEq] at this; exact this.2
    refine ⟨c1, by rw [hrecv, hv], ⟨hL1, _, _, hr1⟩, hc1, ?_⟩
    rw [queue_of_rep c1 _ _ hr1, ← hrest]
    exact List.map_congr_left hkeep

/-- `Recv` ends as `TryRecv` does and leaves the same state. -/
theorem Recv_of_ret (ch : Option (Chan T)) (v : T) (ok : Bool) (s : Option (Chan T))
    (h : TryRecv ch = .ret (v, ok) s) : Recv ch = .ret v s := by
  unfold Recv
  rw [h]

theorem Recv_of_block (ch s : Option (Chan T)) (h : TryRecv ch = .block s) :
    Recv ch = .block s := by
  unfold Recv
  rw [h]

theorem Recv_of_panic (ch s : Option (Chan T)) (msg : String)
    (h : TryRecv ch = .panic msg s) : Recv ch = .panic msg s := by
  unfold Recv
  rw [h]

theorem Recv_state (ch : Option (Chan T)) : (Recv ch).state = (TryRecv ch).state := by
  unfold Recv
  cases h : TryRecv ch with
  | ret a s => cases a; rfl
  | panic msg s => rfl
  | block s => rfl

/-! ## Sequences of calls on a well-formed state -/

theorem run_append (ch : Option (Chan T)) (xs ys : List (Op T)) :
    run ch (xs ++ ys) = ((run ch xs).1 ++ (run (run ch xs).2 ys).1, (run (run ch xs).2 ys).2) := by
  induction xs generalizing ch with
  | nil => rfl
  | cons o os ih =>
    show ((call ch o).1 :: (run (call ch o).2 (os ++ ys)).1, (run (call ch o).2 (os ++ ys)).2) = _
    rw [ih]
    rfl

/-- Every call on a well-formed state leaves a well-formed state, and only
`Close` changes `closed`. -/
theorem call_inv (c : Chan T) (o : Op T) (h : Inv c) :
    ∃ c1 : Chan T, (call (some c) o).2 = some c1 ∧ Inv c1 ∧
      (o ≠ Op.close → c1.closed = c.closed) := by
  cases o with
  | send v =>
    cases hc : c.closed with
    | false =>
      obtain ⟨c1, hs, hi, hc1, _⟩ := Send_inv c v h hc
      exact ⟨c1, by simp [call, hs, observe], hi, fun _ => hc1⟩
    | true =>
      have hs := Send_closed c v h.1 hc
      exact ⟨c, by simp [call, hs, observe], h, fun _ => hc⟩
  | tryRecv =>
    cases hq : queue c with
    | nil =>
      cases hc : c.closed with
      | false =>
        have hs := (TryRecv_inv_nil c h hq).1 hc
        exact ⟨c, by simp [call, hs, observe], h, fun _ => hc⟩
      | true =>
        have hs := (TryRecv_inv_nil c h hq).2 hc
        exact ⟨c, by simp [call, hs, observe], h, fun _ => hc⟩
    | cons v rest =>
      obtain ⟨c1, hs, hi, hc1, _⟩ := TryRecv_inv_cons c v rest h hq
      exact ⟨c1, by simp [call, hs, observe], hi, fun _ => hc1⟩
  | recv =>
    cases hq : queue c with
    | nil =>
      cases hc : c.closed with
      | false =>
        have hs := Recv_of_block _ _ ((TryRecv_inv_nil c h hq).1 hc)
        exact ⟨c, by simp [call, hs, observe], h, fun _ => hc⟩
      | true =>
        have hs := Recv_of_ret _ _ _ _ ((TryRecv_inv_nil c h hq).2 hc)
        exact ⟨c, by simp [call, hs, observe], h, fun _ => hc⟩
    | cons v rest =>
      obtain ⟨c1, hs, hi, hc1, _⟩ := TryRecv_inv_cons c v rest h hq
      have hs1 := Recv_of_ret _ _ _ _ hs
      exact ⟨c1, by simp [call, hs1, observe], hi, fun _ => hc1⟩
  | close =>
    cases hc : c.closed with
    | false =>
      obtain ⟨c1, hs, hi, _⟩ := Close_inv c h hc
      exact ⟨c1, by simp [call, hs, observe], hi, fun hne => absurd rfl hne⟩
    | true =>
      have hs := Close_closed c h.1 hc
      exact ⟨c, by simp [call, hs, observe], h, fun hne => absurd rfl hne⟩

theorem run_inv (ops : List (Op T)) :
    ∀ c : Chan T, Inv c → ∃ c1 : Chan T, (run (some c) ops).2 = some c1 ∧ Inv c1 ∧
      ((∀ o ∈ ops, o ≠ Op.close) → c1.closed = c.closed) := by
  induction ops with
  | nil => exact fun c h => ⟨c, rfl, h, fun _ => rfl⟩
  | cons o os ih =>
    intro c h
    obtain ⟨c1, hcall, hi1, hcl1⟩ := call_inv c o h
    obtain ⟨c2, hrun, hi2, hcl2⟩ := ih c1 hi1
    refine ⟨c2, ?_, hi2, ?_⟩
    · show (run (call (some c) o).2 os).2 = some c2
      rw [hcall, hrun]
    · intro hno
      rw [hcl2 (fun x hx => hno x (List.mem_cons_of_mem o hx)),
        hcl1 (hno o (List.mem_cons_self o os))]

/-- Every state that calls on a fresh channel can leave is well formed. -/
theorem reachable_inv (c : Chan T) (h : Reachable c) : Inv c := by
  obtain ⟨ops, hops⟩ := h
  obtain ⟨c0, hnew, hi0, _, _⟩ := New_inv (T := T)
  rw [hnew] at hops
  obtain ⟨c1, hrun, hi1, _⟩ := run_inv ops c0 hi0
  rw [hrun] at hops
  cases hops
  exact hi1

/-- A run of `Send` calls on a well-formed open channel: each returns, and the
values are appended to the queue in the order sent. -/
theorem run_sends (vs : List T) :
    ∀ c : Chan T, Inv c → c.closed = false →
      ∃ c1 : Chan T, run (some c) (vs.map Op.send) = (vs.map (fun _ => Obs.done), some c1) ∧
        Inv c1 ∧ c1.closed = false ∧ queue c1 = queue c ++ vs := by
  induction vs with
  | nil => exact fun c h hc => ⟨c, rfl, h, hc, by simp⟩
  | cons v vs ih =>
    intro c h hc
    obtain ⟨c1, hs, hi1, hc1, hq1⟩ := Send_inv c v h hc
    obtain ⟨c2, hrun, hi2, hc2, hq2⟩ := ih c1 hi1 hc1
    refine ⟨c2, ?_, hi2, hc2, by rw [hq2, hq1]; simp⟩
    show ((call (some c) (Op.send v)).1 :: (run (call (some c) (Op.send v)).2 _).1,
      (run (call (some c) (Op.send v)).2 _).2) = _
    have hcall : call (some c) (Op.send v) = (Obs.done, some c1) := by
      simp [call, hs, observe]
    rw [hcall, hrun]
    rfl

/-- The receive call chosen by a flag: `TryRecv` for true, `Recv` for false. -/
theorem run_recvs (vbs : List (T × Bool)) :
    ∀ (c : Chan T) (rest : List T), Inv c → queue c = vbs.map Prod.fst ++ rest →
      ∃ c1 : Chan T,
        run (some c) (vbs.map (fun p => if p.2 then Op.tryRecv else Op.recv)) =
          (vbs.map (fun p => if p.2 then Obs.got p.1 true else Obs.val p.1), some c1) ∧
        Inv c1 ∧ c1.closed = c.closed ∧ queue c1 = rest := by
  induction vbs with
  | nil => exact fun c rest h hq => ⟨c, rfl, h, rfl, by simpa using hq⟩
  | cons p ps ih =>
    intro c rest h hq
    obtain ⟨v, b⟩ := p
    obtain ⟨c1, hs, hi1, hc1, hq1⟩ :=
      TryRecv_inv_cons c v (ps.map Prod.fst ++ rest) h (by simpa using hq)
    obtain ⟨c2, hrun, hi2, hc2, hq2⟩ := ih c1 rest hi1 hq1
    refine ⟨c2, ?_, hi2, by rw [hc2, hc1], hq2⟩
    cases b with
    | true =>
      have hcall : call (some c) Op.tryRecv = (Obs.got v true, some c1) := by
        simp [call, hs, observe]
      show ((call (some c) Op.tryRecv).1 :: (run (call (some c) Op.tryRecv).2 _).1,
        (run (call (some c) Op.tryRecv).2 _).2) = _
      rw [hcall, hrun]
      rfl
    | false =>
      have hcall : call (some c) Op.recv = (Obs.val v, some c1) := by
        simp [call, Recv_of_ret _ _ _ _ hs, observe]
      show ((call (some c) Op.recv).1 :: (run (call (some c) Op.recv).2 _).1,
        (run (call (some c) Op.recv).2 _).2) = _
      rw [hcall, hrun]
      rfl

/-- On a closed and drained channel any number of `TryRecv` calls return the
zero value and false and leave the state as it is. -/
theorem run_drained (c : Chan T) (h : Inv c) (hc : c.closed = true) (hq : queue c = [])
    (m : Nat) :
    run (some c) (List.replicate m Op.tryRecv) =
      (List.replicate m (Obs.got default false), some c) := by
  have hcall : call (some c) Op.tryRecv = (Obs.got default false, some c) := by
    simp [call, (TryRecv_inv_nil c h hq).2 hc, observe]
  induction m with
  | zero => rfl
  | succ k ih =>
    show ((call (some c) Op.tryRecv).1 :: (run (call (some c) Op.tryRecv).2 _).1,
      (run (call (some c) Op.tryRecv).2 _).2) = _
    rw [hcall, ih]
    rfl

/-- The three ways `TryRecv` ends on a well-formed state. -/
theorem TryRecv_cases (c : Chan T) (h : Inv c) :
    (queue c = [] ∧ c.closed = false ∧ TryRecv (some c) = .block (some c)) ∨
    (queue c = [] ∧ c.closed = true ∧ TryRecv (some c) = .ret (default, false) (some c)) ∨
    (∃ (v : T) (rest : List T) (c1 : Chan T), queue c = v :: rest ∧
      TryRecv (some c) = .ret (v, true) (some c1) ∧ Inv c1 ∧ c1.closed = c.closed ∧
      queue c1 = rest) := by
  cases hq : queue c with
  | nil =>
    cases hc : c.closed with
    | false => exact Or.inl ⟨rfl, rfl, (TryRecv_inv_nil c h hq).1 hc⟩
    | true => exact Or.inr (Or.inl ⟨rfl, rfl, (TryRecv_inv_nil c h hq).2 hc⟩)
  | cons v rest =>
    obtain ⟨c1, hs, hi, hc1, hq1⟩ := TryRecv_inv_cons c v rest h hq
    exact Or.inr (Or.inr ⟨v, rest, c1, rfl, hs, hi, hc1, hq1⟩)

/-- `Send` never waits on a well-formed state. -/
theorem Send_not_block (c : Chan T) (v : T) (h : Inv c) (s : Option (Chan T)) :
    Send (some c) v ≠ .block s := by
  intro hb
  cases hc : c.closed with
  | false =>
    obtain ⟨c1, hs, _⟩ := Send_inv c v h hc
    rw [hs] at hb
    cases hb
  | true =>
    rw [Send_closed c v h.1 hc] at hb
    cases hb

/-- `Close` never waits on a state whose mutex is free. -/
theorem Close_not_block (c : Chan T) (hL : c.L = some false) (s : Option (Chan T)) :
    Close (some c) ≠ .block s := by
  intro hb
  cases hc : c.closed with
  | false =>
    obtain ⟨c1, hs, _⟩ := Close_open c hL hc
    rw [hs] at hb
    cases hb
  | true =>
    rw [Close_closed c hL hc] at hb
    cases hb

/-! ## What one call moves between the queue and its caller -/

/-- One call on a well-formed state: the value it hands out, followed by the
queue it leaves, is the queue it found followed by the value it took in. -/
theorem call_fifo (c : Chan T) (o : Op T) (h : Inv c) :
    ∃ c1 : Chan T, (call (some c) o).2 = some c1 ∧ Inv c1 ∧
      recvValue (some c) o ++ queue c1 = queue c ++ sentValue (some c) o := by
  cases o with
  | send v =>
    cases hc : c.closed with
    | false =>
      obtain ⟨c1, hs, hi, _, hq⟩ := Send_inv c v h hc
      exact ⟨c1, by simp [call, hs, observe], hi, by simp [recvValue, sentValue, hs, hq]⟩
    | true =>
      have hs := Send_closed c v h.1 hc
      exact ⟨c, by simp [call, hs, observe], h, by simp [recvValue, sentValue, hs]⟩
  | tryRecv =>
    rcases TryRecv_cases c h with ⟨_, _, hr⟩ | ⟨_, _, hr⟩ | ⟨v, rest, c1, hq, hr, hi, _, hq1⟩
    · exact ⟨c, by simp [call, hr, observe], h, by simp [recvValue, sentValue, hr]⟩
    · exact ⟨c, by simp [call, hr, observe], h, by simp [recvValue, sentValue, hr]⟩
    · exact ⟨c1, by simp [call, hr, observe], hi,
        by simp [recvValue, sentValue, hr, hq, hq1]⟩
  | recv =>
    rcases TryRecv_cases c h with ⟨_, _, hr⟩ | ⟨_, _, hr⟩ | ⟨v, rest, c1, hq, hr, hi, _, hq1⟩
    · exact ⟨c, by simp [call, Recv_of_block _ _ hr, observe], h,
        by simp [recvValue, sentValue, hr]⟩
    · exact ⟨c, by simp [call, Recv_of_ret _ _ _ _ hr, observe], h,
        by simp [recvValue, sentValue, hr]⟩
    · exact ⟨c1, by simp [call, Recv_of_ret _ _ _ _ hr, observe], hi,
        by simp [recvValue, sentValue, hr, hq, hq1]⟩
  | close =>
    cases hc : c.closed with
    | false =>
      obtain ⟨c1, hs, hi, _, _, _, _, _, _, _, hq⟩ := Close_inv c h hc
      exact ⟨c1, by simp [call, hs, observe], hi, by simp [recvValue, sentValue, hq]⟩
    | true =>
      have hs := Close_closed c h.1 hc
      exact ⟨c, by simp [call, hs, observe], h, by simp [recvValue, sentValue]⟩

theorem run_fifo (ops : List (Op T)) :
    ∀ c : Chan T, Inv c → ∃ c1 : Chan T, (run (some c) ops).2 = some c1 ∧ Inv c1 ∧
      received (some c) ops ++ queue c1 = queue c ++ sent (some c) ops := by
  induction ops with
  | nil => exact fun c h => ⟨c, rfl, h, by simp [received, sent]⟩
  | cons o os ih =>
    intro c h
    obtain ⟨c1, hcall, hi1, hq1⟩ := call_fifo c o h
    obtain ⟨c2, hrun, hi2, hq2⟩ := ih c1 hi1
    refine ⟨c2, ?_, hi2, ?_⟩
    · show (run (call (some c) o).2 os).2 = some c2
      rw [hcall, hrun]
    · show (recvValue (some c) o ++ received (call (some c) o).2 os) ++ queue c2 =
        queue c ++ (sentValue (some c) o ++ sent (call (some c) o).2 os)
      rw [hcall, List.append_assoc, hq2, ← List.append_assoc, hq1, List.append_assoc]

/-! ## Facts about well-formed states used by the invariants -/

/-- A well-formed state represents the two chains found by walking its store. -/
theorem rep_of_inv (c : Chan T) (h : Inv c) : Rep c (liveNodes c) (freeNodes c) := by
  obtain ⟨_, q, f, hr⟩ := h
  rw [liveNodes_of_rep c q f hr, freeNodes_of_rep c q f hr]
  exact hr

/-- The last node of a chain has a nil `next` pointer. -/
theorem IsList.last_next {st : List (node T)} (t : Nat) :
    ∀ (q : List Nat) (p : Option Nat), IsList st p q → q.getLast? = some t →
      (rd st t).next = none
  | [], _, _, hl => by simp at hl
  | [a], _, h, hl => by
    have hat : a = t := by simpa using hl
    subst hat
    exact h.2.2
  | a :: b :: bs, _, h, hl => by
    rw [List.getLast?_cons_cons] at hl
    exact IsList.last_next t (b :: bs) _ h.2.2 hl

/-- More fuel does not change what the loop of `Close` computes. -/
theorem closeLoop_mono :
    ∀ (k j : Nat) (st : List (node T)) (p : Option Nat) (st1 : List (node T)),
      closeLoop k st p = some st1 → closeLoop (k + j) st p = some st1
  | k, j, st, none, st1, h => by
    rw [closeLoop_nil] at h
    rw [closeLoop_nil]
    exact h
  | 0, j, st, some a, st1, h => by
    have hnone : closeLoop 0 st (some a) = none := rfl
    rw [hnone] at h
    cases h
  | k + 1, j, st, some a, st1, h => by
    have hstep : closeLoop (k + 1) st (some a) =
        closeLoop k (setNext (setData st a default) a none) (rd st a).next := rfl
    have hstep1 : closeLoop (k + j + 1) st (some a) =
        closeLoop (k + j) (setNext (setData st a default) a none) (rd st a).next := rfl
    rw [hstep] at h
    rw [Nat.add_right_comm, hstep1]
    exact closeLoop_mono k j _ _ st1 h

/-- On a closed well-formed state the free-list is empty. -/
theorem closed_free_empty (c : Chan T) (h : Inv c) (hc : c.closed = true) :
    c.free = none ∧ c.freed = 0 ∧ freeNodes c = [] := by
  have hr := rep_of_inv c h
  obtain ⟨_, hf, _, _, hfreed, _, hcl, _⟩ := hr
  have hnil : freeNodes c = [] := hcl hc
  rw [hnil] at hf hfreed
  exact ⟨hf, by simpa using hfreed, hnil⟩

/-- A call on a closed well-formed state leaves it closed and adds nothing to
the queue. -/
theorem call_closed (c : Chan T) (o : Op T) (h : Inv c) (hc : c.closed = true) :
    ∃ c1 : Chan T, (call (some c) o).2 = some c1 ∧ Inv c1 ∧ c1.closed = true ∧
      queue c1 <:+ queue c := by
  cases o with
  | send v =>
    have hs := Send_closed c v h.1 hc
    exact ⟨c, by simp [call, hs, observe], h, hc, List.suffix_refl _⟩
  | tryRecv =>
    rcases TryRecv_cases c h with ⟨_, _, hr⟩ | ⟨_, _, hr⟩ | ⟨v, rest, c1, hq, hr, hi, hc1, hq1⟩
    · exact ⟨c, by simp [call, hr, observe], h, hc, List.suffix_refl _⟩
    · exact ⟨c, by simp [call, hr, observe], h, hc, List.suffix_refl _⟩
    · exact ⟨c1, by simp [call, hr, observe], hi, by rw [hc1, hc],
        by rw [hq, hq1]; exact List.suffix_cons v rest⟩
  | recv =>
    rcases TryRecv_cases c h with ⟨_, _, hr⟩ | ⟨_, _, hr⟩ | ⟨v, rest, c1, hq, hr, hi, hc1, hq1⟩
    · exact ⟨c, by simp [call, Recv_of_block _ _ hr, observe], h, hc, List.suffix_refl _⟩
    · exact ⟨c, by simp [call, Recv_of_ret _ _ _ _ hr, observe], h, hc, List.suffix_refl _⟩
    · exact ⟨c1, by simp [call, Recv_of_ret _ _ _ _ hr, observe], hi, by rw [hc1, hc],
        by rw [hq, hq1]; exact List.suffix_cons v rest⟩
  | close =>
    have hs := Close_closed c h.1 hc
    exact ⟨c, by simp [call, hs, observe], h, hc, List.suffix_refl _⟩

theorem run_closed (ops : List (Op T)) :
    ∀ c : Chan T, Inv c → c.closed = true →
      ∃ c1 : Chan T, (run (some c) ops).2 = some c1 ∧ Inv c1 ∧ c1.closed = true ∧
        queue c1 <:+ queue c := by
  induction ops with
  | nil => exact fun c h hc => ⟨c, rfl, h, hc, List.suffix_refl _⟩
  | cons o os ih =>
    intro c h hc
    obtain ⟨c1, hcall, hi1, hc1, hq1⟩ := call_closed c o h hc
    obtain ⟨c2, hrun, hi2, hc2, hq2⟩ := ih c1 hi1 hc1
    refine ⟨c2, ?_, hi2, hc2, hq2.trans hq1⟩
    show (run (call (some c) o).2 os).2 = some c2
    rw [hcall, hrun]

/-- The node that a successful `TryRecv` took out of the queue holds the zero
value afterwards, whether it was recycled or dropped. -/
theorem TryRecv_clears (c : Chan T) (n : Nat) (q f : List Nat) (hL : c.L = some false)
    (hr : Rep c (n :: q) f) (r : T × Bool) (c1 : Chan T)
    (hrecv : TryRecv (some c) = .ret r (some c1)) : (rd c1.store n).data = default := by
  have hh : c.head = some n := hr.1.1
  have hn : n < c.store.length := hr.1.2.1
  rw [TryRecv_head c n hL hh] at hrecv
  by_cases hcond : c.closed = false ∧ c.freed < maxFreeCache
  · rw [if_pos hcond] at hrecv
    cases hrecv
    show (rd (setNext (setData c.store n default) n c.free) n).data = default
    rw [rd_setNext_data]
    exact rd_setData_data_self _ _ _ hn
  · rw [if_neg hcond] at hrecv
    cases hrecv
    show (rd (setNext (setData c.store n default) n none) n).data = default
    rw [rd_setNext_data]
    exact rd_setData_data_self _ _ _ hn

/-! ## Where the nodes of the two chains come from -/

/-- The node that `send` takes is the first node of the free-list or the node
allocated next. -/
theorem sendNode_node (c : Chan T) (q f : List Nat) (hr : Rep c q f) :
    (sendNode c).2.1 ∈ f ∨ (sendNode c).2.1 = c.store.length := by
  obtain ⟨_, hf, _⟩ := hr
  cases f with
  | nil =>
    have hfree : c.free = none := hf
    right
    unfold sendNode
    rw [hfree]
  | cons a f1 =>
    have hfree : c.free = some a := hf.1
    left
    unfold sendNode
    rw [hfree]
    exact List.mem_cons_self a f1

/-- After `send` has returned, `tail` is the node that it took. -/
theorem send_tail (c : Chan T) (v : T) (c1 : Chan T) (hL : c.L = some false)
    (hc : c.closed = false) (hs : send c v = .ret () c1) :
    c1.tail = some (sendNode c).2.1 := by
  unfold send at hs
  simp only [hL, hc] at hs
  cases ht : c.tail with
  | none =>
    rw [ht] at hs
    simp only [Bool.false_eq_true, if_false] at hs
    cases hs
    rfl
  | some t =>
    rw [ht] at hs
    simp only [Bool.false_eq_true, if_false] at hs
    cases hs
    rfl

/-- One call on a well-formed state: a node of the new free-list was on the
free-list or in the live queue before, and a node of the new live queue was in
the live queue or on the free-list before, or is newly allocated. -/
theorem call_moves (c : Chan T) (o : Op T) (h : Inv c) :
    ∃ c1 : Chan T, (call (some c) o).2 = some c1 ∧ Inv c1 ∧
      (∀ a ∈ freeNodes c1, a ∈ freeNodes c ∨ a ∈ liveNodes c) ∧
      (∀ a ∈ liveNodes c1,
        a ∈ liveNodes c ∨ a ∈ freeNodes c ∨ a = c.store.length) := by
  have same : ∀ s : Option (Chan T), s = some c → ∃ c1 : Chan T, s = some c1 ∧ Inv c1 ∧
      (∀ a ∈ freeNodes c1, a ∈ freeNodes c ∨ a ∈ liveNodes c) ∧
      (∀ a ∈ liveNodes c1,
        a ∈ liveNodes c ∨ a ∈ freeNodes c ∨ a = c.store.length) :=
    fun s hs => ⟨c, hs, h, fun a ha => Or.inl ha, fun a ha => Or.inl ha⟩
  have hcases : liveNodes c = [] ∨ ∃ n q, liveNodes c = n :: q := by
    cases liveNodes c with
    | nil => exact Or.inl rfl
    | cons n q => exact Or.inr ⟨n, q, rfl⟩
  have hrep := rep_of_inv c h
  have hL := h.1
  have recvCase : ∀ (c1 : Chan T) (n : Nat) (q : List Nat),
      liveNodes c = n :: q →
      Rep c1 q (if c.closed = false ∧ c.freed < maxFreeCache then n :: freeNodes c
        else freeNodes c) → c1.L = some false →
      Inv c1 ∧ (∀ a ∈ freeNodes c1, a ∈ freeNodes c ∨ a ∈ liveNodes c) ∧
      (∀ a ∈ liveNodes c1,
        a ∈ liveNodes c ∨ a ∈ freeNodes c ∨ a = c.store.length) := by
    intro c1 n q hlive hr1 hL1
    refine ⟨⟨hL1, _, _, hr1⟩, ?_, ?_⟩
    · intro a ha
      rw [freeNodes_of_rep c1 _ _ hr1] at ha
      by_cases hcond : c.closed = false ∧ c.freed < maxFreeCache
      · rw [if_pos hcond] at ha
        rcases List.mem_cons.mp ha with rfl | hmem
        · right; rw [hlive]; exact List.mem_cons_self _ _
        · left; exact hmem
      · rw [if_neg hcond] at ha
        left; exact ha
    · intro a ha
      rw [liveNodes_of_rep c1 _ _ hr1] at ha
      left; rw [hlive]; exact List.mem_cons_of_mem n ha
  cases o with
  | send v =>
    cases hc : c.closed with
    | true =>
      have hs := Send_closed c v hL hc
      exact same _ (by simp [call, hs, observe])
    | false =>
      obtain ⟨c1, n, hs, hL1, _, hr1, _, _, _⟩ :=
        send_spec c v (liveNodes c) (freeNodes c) hL hc hrep
      have htail := send_tail c v c1 hL hc hs
      have hn : n = (sendNode c).2.1 := by
        have h1 : c1.tail = (liveNodes c ++ [n]).getLast? := hr1.2.2.1
        rw [htail] at h1
        simpa using h1.symm
      have hnode := sendNode_node c _ _ hrep
      rw [← hn] at hnode
      refine ⟨c1, by simp [call, Send_some c v c1 hL hs, observe], ⟨hL1, _, _, hr1⟩, ?_, ?_⟩
      · intro a ha
        rw [freeNodes_of_rep c1 _ _ hr1] at ha
        exact Or.inl (List.mem_of_mem_tail ha)
      · intro a ha
        rw [liveNodes_of_rep c1 _ _ hr1] at ha
        rcases List.mem_append.mp ha with hq | hlast
        · exact Or.inl hq
        · have han : a = n := by simpa using hlast
          rw [han]
          exact Or.inr hnode
  | tryRecv =>
    rcases hcases with hlive | ⟨n, q, hlive⟩
    · rw [hlive] at hrep
      cases hc : c.closed with
      | false =>
        have hs := TryRecv_empty_open c _ hL hc hrep
        exact same _ (by simp [call, hs, observe])
      | true =>
        have hs := TryRecv_empty_closed c _ hL hc hrep
        exact same _ (by simp [call, hs, observe])
    · rw [hlive] at hrep
      obtain ⟨c1, hs, hL1, _, hr1, _⟩ := TryRecv_spec c n q _ hL hrep
      exact ⟨c1, by simp [call, hs, observe], recvCase c1 n q hlive hr1 hL1⟩
  | recv =>
    rcases hcases with hlive | ⟨n, q, hlive⟩
    · rw [hlive] at hrep
      cases hc : c.closed with
      | false =>
        have hs := Recv_of_block _ _ (TryRecv_empty_open c _ hL hc hrep)
        exact same _ (by simp [call, hs, observe])
      | true =>
        have hs := Recv_of_ret _ _ _ _ (TryRecv_empty_closed c _ hL hc hrep)
        exact same _ (by simp [call, hs, observe])
    · rw [hlive] at hrep
      obtain ⟨c1, hs, hL1, _, hr1, _⟩ := TryRecv_spec c n q _ hL hrep
      exact ⟨c1, by simp [call, Recv_of_ret _ _ _ _ hs, observe],
        recvCase c1 n q hlive hr1 hL1⟩
  | close =>
    cases hc : c.closed with
    | true =>
      have hs := Close_closed c hL hc
      exact same _ (by simp [call, hs, observe])
    | false =>
      obtain ⟨c1, hs, hL1, _, _, _, _, _, hr1, _⟩ :=
        Close_spec c (liveNodes c) (freeNodes c) hL hc hrep
      refine ⟨c1, by simp [call, hs, observe], ⟨hL1, _, _, hr1⟩, ?_, ?_⟩
      · intro a ha
        rw [freeNodes_of_rep c1 _ _ hr1] at ha
        simp at ha
      · intro a ha
        rw [liveNodes_of_rep c1 _ _ hr1] at ha
        exact Or.inl ha

end runs

section claims
variable {T : Type} [Inhabited T]

/-! ## The contract of the channel -/

/-- C1: FIFO.  After `Send(v1), ..., Send(vn)` on the channel that `New` returns,
n receive calls, each one `TryRecv` (flag true) or `Recv` (flag false), return
`v1, ..., vn` in that order, every `TryRecv` with `ok = true`; each of the 2n
calls returns, none waits or panics, and the queue is empty afterwards. -/
theorem fifo_sends_then_receives (vbs : List (T × Bool)) :
    ∃ c1 : Chan T,
      run New (vbs.map (fun p => Op.send p.1) ++
          vbs.map (fun p => if p.2 then Op.tryRecv else Op.recv)) =
        (vbs.map (fun _ => Obs.done) ++
          vbs.map (fun p => if p.2 then Obs.got p.1 true else Obs.val p.1), some c1) ∧
      queue c1 = [] := by
  obtain ⟨c0, hnew, hi0, hc0, hq0⟩ := New_inv (T := T)
  obtain ⟨c1, hrun1, hi1, _, hq1⟩ := run_sends (vbs.map Prod.fst) c0 hi0 hc0
  rw [hq0, List.nil_append] at hq1
  obtain ⟨c2, hrun2, _, _, hq2⟩ := run_recvs vbs c1 [] hi1 (by rw [hq1]; simp)
  refine ⟨c2, ?_, hq2⟩
  have hsend : vbs.map (fun p => Op.send p.1) = (vbs.map Prod.fst).map Op.send := by
    simp [List.map_map, Function.comp_def]
  have hobs : (vbs.map Prod.fst).map (fun _ => (Obs.done : Obs T)) =
      vbs.map (fun _ => Obs.done) := by
    simp [List.map_map, Function.comp_def]
  rw [hobs] at hrun1
  rw [run_append, hsend, hnew, hrun1, hrun2]

/-- C2: close-then-drain.  After `Send(v1), ..., Send(vn)` and `Close()` on the
channel that `New` returns, the next n `TryRecv` calls return `(v1, true)`, ...,
`(vn, true)` in order; from then on `TryRecv` returns the zero value and false
and leaves the state as it is, for any number `m` of repetitions. -/
theorem close_then_drain (vs : List T) (m : Nat) :
    ∃ c1 : Chan T,
      run New (vs.map Op.send ++ [Op.close] ++ vs.map (fun _ => Op.tryRecv)) =
        (vs.map (fun _ => Obs.done) ++ [Obs.done] ++ vs.map (fun v => Obs.got v true),
          some c1) ∧
      TryRecv (some c1) = .ret (default, false) (some c1) ∧
      run (some c1) (List.replicate m Op.tryRecv) =
        (List.replicate m (Obs.got default false), some c1) := by
  obtain ⟨c0, hnew, hi0, hc0, hq0⟩ := New_inv (T := T)
  obtain ⟨c1, hrun1, hi1, hc1, hq1⟩ := run_sends vs c0 hi0 hc0
  rw [hq0, List.nil_append] at hq1
  obtain ⟨c2, hclose, hi2, hc2, _, _, _, _, _, _, hq2⟩ := Close_inv c1 hi1 hc1
  obtain ⟨c3, hrun3, hi3, hc3, hq3⟩ :=
    run_recvs (vs.map (fun v => (v, true))) c2 [] hi2
      (by rw [hq2, hq1]; simp [List.map_map, Function.comp_def])
  have hclosed : c3.closed = true := by rw [hc3, hc2]
  refine ⟨c3, ?_, (TryRecv_inv_nil c3 hi3 hq3).2 hclosed, run_drained c3 hi3 hclosed hq3 m⟩
  have hcall : run (some c1) [Op.close] = ([Obs.done], some c2) := by
    simp [run, call, hclose, observe]
  have hops : (vs.map (fun v => (v, true))).map
      (fun p : T × Bool => if p.2 then (Op.tryRecv : Op T) else Op.recv) =
      vs.map (fun _ => (Op.tryRecv : Op T)) := by
    simp [List.map_map, Function.comp_def]
  have hobs : (vs.map (fun v => (v, true))).map
      (fun p : T × Bool => if p.2 then Obs.got p.1 true else Obs.val p.1) =
      vs.map (fun v => Obs.got v true) := by
    simp [List.map_map, Function.comp_def]
  rw [hops, hobs] at hrun3
  rw [run_append, run_append, hnew, hrun1, hcall, hrun3]

/-- C3: send after close.  On every constructed channel state with `closed`
true, whatever it has queued, `Send(v)` panics with "send on closed channel" and
leaves the whole channel state, every field of it, as it was. -/
theorem send_on_closed (c : Chan T) (v : T) (hL : c.L = some false)
    (hc : c.closed = true) :
    Send (some c) v = .panic "send on closed channel" (some c) :=
  Send_closed c v hL hc

theorem send_on_closed_witness :
    sampleClosed.L = some false ∧ sampleClosed.closed = true ∧ queue sampleClosed = [7, 9] ∧
      Send (some sampleClosed) 5 = .panic "send on closed channel" (some sampleClosed) :=
  ⟨rfl, rfl, rfl, send_on_closed sampleClosed 5 rfl rfl⟩

/-- C4: double close.  On every constructed channel state `Close()` panics if
and only if `closed` is already true, and then with "close of closed channel"
and no change of state.  After any calls other than `Close` on a fresh channel,
the first `Close` returns and the second one panics. -/
theorem close_panics_iff_closed :
    (∀ c : Chan T, c.L = some false →
      ((∃ msg s, Close (some c) = .panic msg s) ↔ c.closed = true) ∧
      (c.closed = true → Close (some c) = .panic "close of closed channel" (some c))) ∧
    (∀ ops : List (Op T), (∀ o ∈ ops, o ≠ Op.close) →
      ∃ c0 c1 : Chan T, (run New ops).2 = some c0 ∧
        Close (some c0) = .ret () (some c1) ∧
        Close (some c1) = .panic "close of closed channel" (some c1)) := by
  constructor
  · intro c hL
    constructor
    · constructor
      · rintro ⟨msg, s, hp⟩
        cases hc : c.closed with
        | true => rfl
        | false =>
          obtain ⟨c1, hret, _⟩ := Close_open c hL hc
          rw [hret] at hp
          cases hp
      · intro hc
        exact ⟨_, _, Close_closed c hL hc⟩
    · exact Close_closed c hL
  · intro ops hops
    obtain ⟨c0, hnew, hi0, hc0, _⟩ := New_inv (T := T)
    obtain ⟨c1, hrun, hi1, hc1⟩ := run_inv ops c0 hi0
    have hopen : c1.closed = false := by rw [hc1 hops, hc0]
    obtain ⟨c2, hclose, hi2, hc2, _⟩ := Close_inv c1 hi1 hopen
    exact ⟨c1, c2, by rw [hnew, hrun], hclose, Close_closed c2 hi2.1 hc2⟩

theorem close_panics_iff_closed_witness :
    (sampleOpen.closed = false ∧ ¬ ∃ msg s, Close (some sampleOpen) = .panic msg s) ∧
    Close (some sampleClosed) = .panic "close of closed channel" (some sampleClosed) ∧
    ∃ c0 c1 : Chan Nat, (run New [Op.send 7, Op.tryRecv, Op.send 9]).2 = some c0 ∧
      Close (some c0) = .ret () (some c1) ∧
      Close (some c1) = .panic "close of closed channel" (some c1) :=
  ⟨⟨rfl, fun h => Bool.noConfusion
      (((close_panics_iff_closed (T := Nat)).1 sampleOpen rfl).1.mp h)⟩,
    ((close_panics_iff_closed (T := Nat)).1 sampleClosed rfl).2 rfl,
    (close_panics_iff_closed (T := Nat)).2 [Op.send 7, Op.tryRecv, Op.send 9] (by decide)⟩

/-- C5: close on an inert handle.  For every handle for which `isNil` holds, a
nil pointer or a `Chan` whose locker is nil, `Close()` panics with "close of
nil channel": it neither waits nor returns, and the handle is untouched. -/
theorem close_on_inert (ch : Option (Chan T)) (h : isNil ch = true) :
    Close ch = .panic "close of nil channel" ch := by
  unfold Close
  simp [h]

theorem close_on_inert_witness :
    (isNil (none : Option (Chan Nat)) = true ∧
      Close (none : Option (Chan Nat)) = .panic "close of nil channel" none) ∧
    (isNil (some sampleInert) = true ∧
      Close (some sampleInert) = .panic "close of nil channel" (some sampleInert)) :=
  ⟨⟨rfl, close_on_inert none rfl⟩, ⟨rfl, close_on_inert (some sampleInert) rfl⟩⟩

/-- C6: an inert handle blocks.  For every handle for which `isNil` holds and
every value `v`, the calls `Send(v)`, `TryRecv()` and `Recv()` never return and
never panic, and the handle is as it was: nothing of the channel is touched. -/
theorem inert_handle_blocks (ch : Option (Chan T)) (v : T) (h : isNil ch = true) :
    Send ch v = .block ch ∧ TryRecv ch = .block ch ∧ Recv ch = .block ch := by
  have htry : TryRecv ch = .block ch := by
    unfold TryRecv
    simp [h]
  refine ⟨?_, htry, Recv_of_block ch ch htry⟩
  unfold Send
  simp [h]

theorem inert_handle_blocks_witness :
    isNil (some sampleInert) = true ∧
      Send (some sampleInert) 5 = .block (some sampleInert) ∧
      TryRecv (some sampleInert) = .block (some sampleInert) ∧
      Recv (some sampleInert) = .block (some sampleInert) :=
  ⟨rfl, inert_handle_blocks (some sampleInert) 5 rfl⟩

/-- C7: the outcome of `TryRecv` in every reachable state.  It waits exactly
when the queue is empty and the channel is open; it returns false (with the
zero value, changing nothing) exactly when the queue is empty and the channel
is closed; otherwise it returns the oldest queued value and true, and the
queue loses that value and keeps the others in order.  It never panics, and
`Send` and `Close` never wait. -/
theorem tryRecv_outcomes (c : Chan T) (h : Reachable c) :
    ((∃ s, TryRecv (some c) = .block s) ↔ (queue c = [] ∧ c.closed = false)) ∧
    ((∃ v s, TryRecv (some c) = .ret (v, false) s) ↔ (queue c = [] ∧ c.closed = true)) ∧
    (queue c = [] → c.closed = false → TryRecv (some c) = .block (some c)) ∧
    (queue c = [] → c.closed = true → TryRecv (some c) = .ret (default, false) (some c)) ∧
    (∀ v rest, queue c = v :: rest →
      ∃ c1 : Chan T, TryRecv (some c) = .ret (v, true) (some c1) ∧ queue c1 = rest ∧
        c1.closed = c.closed) ∧
    (∀ msg s, TryRecv (some c) ≠ .panic msg s) ∧
    (∀ v s, Send (some c) v ≠ .block s) ∧
    (∀ s, Close (some c) ≠ .block s) := by
  have hi := reachable_inv c h
  refine ⟨?_, ?_, fun hq hc => (TryRecv_inv_nil c hi hq).1 hc,
    fun hq hc => (TryRecv_inv_nil c hi hq).2 hc, ?_, ?_,
    fun v s => Send_not_block c v hi s, fun s => Close_not_block c hi.1 s⟩
  · rcases TryRecv_cases c hi with ⟨hq, hc, hr⟩ | ⟨hq, hc, hr⟩ | ⟨v, rest, c1, hq, hr, _⟩
    · exact ⟨fun _ => ⟨hq, hc⟩, fun _ => ⟨_, hr⟩⟩
    · constructor
      · rintro ⟨s, hs⟩
        rw [hr] at hs
        cases hs
      · rintro ⟨_, hc1⟩
        rw [hc] at hc1
        cases hc1
    · constructor
      · rintro ⟨s, hs⟩
        rw [hr] at hs
        cases hs
      · rintro ⟨hq1, _⟩
        rw [hq] at hq1
        cases hq1
  · rcases TryRecv_cases c hi with ⟨hq, hc, hr⟩ | ⟨hq, hc, hr⟩ | ⟨v, rest, c1, hq, hr, _⟩
    · constructor
      · rintro ⟨v, s, hs⟩
        rw [hr] at hs
        cases hs
      · rintro ⟨_, hc1⟩
        rw [hc] at hc1
        cases hc1
    · exact ⟨fun _ => ⟨hq, hc⟩, fun _ => ⟨_, _, hr⟩⟩
    · constructor
      · rintro ⟨v1, s, hs⟩
        rw [hr] at hs
        cases hs
      · rintro ⟨hq1, _⟩
        rw [hq] at hq1
        cases hq1
  · intro v rest hq
    obtain ⟨c1, hr, _, hc1, hq1⟩ := TryRecv_inv_cons c v rest hi hq
    exact ⟨c1, hr, hq1, hc1⟩
  · intro msg s hp
    rcases TryRecv_cases c hi with ⟨_, _, hr⟩ | ⟨_, _, hr⟩ | ⟨v, rest, c1, _, hr, _⟩ <;>
    · rw [hr] at hp
      cases hp

theorem tryRecv_outcomes_witness :
    Reachable sampleOpen ∧ queue sampleOpen = [9, 11] ∧
      (∃ c1 : Chan Nat, TryRecv (some sampleOpen) = .ret (9, true) (some c1) ∧
        queue c1 = [11] ∧ c1.closed = sampleOpen.closed) ∧
      ∀ msg s, TryRecv (some sampleOpen) ≠ .panic msg s :=
  have hr : Reachable sampleOpen :=
    ⟨[Op.send 7, Op.send 9, Op.tryRecv, Op.send 11], rfl⟩
  ⟨hr, rfl, (tryRecv_outcomes sampleOpen hr).2.2.2.2.1 9 [11] rfl,
    (tryRecv_outcomes sampleOpen hr).2.2.2.2.2.1⟩

/-- C8: unbounded send.  In every state of a constructed channel that is not
closed, whatever the length of its queue, `Send(v)` returns (no panic, no
wait); the queue afterwards is the old queue with `v` appended at the end, one
value longer, and `closed` is unchanged. -/
theorem send_appends (c : Chan T) (v : T) (h : Reachable c) (hc : c.closed = false) :
    ∃ c1 : Chan T, Send (some c) v = .ret () (some c1) ∧ queue c1 = queue c ++ [v] ∧
      (queue c1).length = (queue c).length + 1 ∧ c1.closed = c.closed := by
  obtain ⟨c1, hs, _, hc1, hq1⟩ := Send_inv c v (reachable_inv c h) hc
  exact ⟨c1, hs, hq1, by rw [hq1]; simp, by rw [hc1, hc]⟩

theorem send_appends_witness :
    Reachable sampleOpen ∧ sampleOpen.closed = false ∧
      ∃ c1 : Chan Nat, Send (some sampleOpen) 5 = .ret () (some c1) ∧
        queue c1 = queue sampleOpen ++ [5] ∧
        (queue c1).length = (queue sampleOpen).length + 1 ∧ c1.closed = sampleOpen.closed :=
  have hr : Reachable sampleOpen :=
    ⟨[Op.send 7, Op.send 9, Op.tryRecv, Op.send 11], rfl⟩
  ⟨hr, rfl, send_appends sampleOpen 5 hr rfl⟩

/-- C9: the effect of `Close`.  In every state of a constructed channel that is
not closed, `Close()` returns; afterwards `closed` is true, the free-list is
empty (`free` is nil, `freed` is 0), while `head`, `tail`, the live nodes and
the queued values are what they were, so that the values queued before the
close are received by the next calls of `TryRecv`, in order. -/
theorem close_effect (c : Chan T) (h : Reachable c) (hc : c.closed = false) :
    ∃ c1 : Chan T, Close (some c) = .ret () (some c1) ∧ c1.closed = true ∧
      c1.free = none ∧ c1.freed = 0 ∧ freeNodes c1 = [] ∧
      c1.head = c.head ∧ c1.tail = c.tail ∧ liveNodes c1 = liveNodes c ∧
      queue c1 = queue c ∧
      (run (some c1) ((queue c).map (fun _ => Op.tryRecv))).1 =
        (queue c).map (fun v => Obs.got v true) := by
  obtain ⟨c1, hs, hi1, hc1, hfree, hfreed, hhead, htail, hlive, hfn, hq1⟩ :=
    Close_inv c (reachable_inv c h) hc
  refine ⟨c1, hs, hc1, hfree, hfreed, hfn, hhead, htail, hlive, hq1, ?_⟩
  obtain ⟨c2, hrun, _⟩ := run_recvs ((queue c).map (fun v => (v, true))) c1 [] hi1
    (by rw [hq1]; simp [List.map_map, Function.comp_def])
  have hops : ((queue c).map (fun v => (v, true))).map
      (fun p : T × Bool => if p.2 then (Op.tryRecv : Op T) else Op.recv) =
      (queue c).map (fun _ => (Op.tryRecv : Op T)) := by
    simp [List.map_map, Function.comp_def]
  have hobs : ((queue c).map (fun v => (v, true))).map
      (fun p : T × Bool => if p.2 then Obs.got p.1 true else Obs.val p.1) =
      (queue c).map (fun v => Obs.got v true) := by
    simp [List.map_map, Function.comp_def]
  rw [hops, hobs] at hrun
  rw [hrun]

theorem close_effect_witness :
    Reachable sampleOpen ∧ sampleOpen.closed = false ∧
      ∃ c1 : Chan Nat, Close (some sampleOpen) = .ret () (some c1) ∧ c1.closed = true ∧
        c1.free = none ∧ c1.freed = 0 ∧ freeNodes c1 = [] ∧
        c1.head = sampleOpen.head ∧ c1.tail = sampleOpen.tail ∧
        liveNodes c1 = liveNodes sampleOpen ∧ queue c1 = queue sampleOpen ∧
        (run (some c1) ((queue sampleOpen).map (fun _ => Op.tryRecv))).1 =
          (queue sampleOpen).map (fun v => Obs.got v true) :=
  have hr : Reachable sampleOpen :=
    ⟨[Op.send 7, Op.send 9, Op.tryRecv, Op.send 11], rfl⟩
  ⟨hr, rfl, close_effect sampleOpen hr rfl⟩

/-- C10: `Recv` is `TryRecv` with the flag dropped.  On every handle `Recv`
waits, returns or panics exactly when `TryRecv` does, leaving the same state,
and it returns `v` exactly when `TryRecv` returns `v` with some flag; so on a
closed channel with an empty queue `Recv` returns the zero value. -/
theorem recv_drops_flag (ch : Option (Chan T)) :
    (Recv ch).state = (TryRecv ch).state ∧
    (∀ s, Recv ch = .block s ↔ TryRecv ch = .block s) ∧
    (∀ v s, Recv ch = .ret v s ↔ ∃ ok, TryRecv ch = .ret (v, ok) s) ∧
    (∀ msg s, Recv ch = .panic msg s ↔ TryRecv ch = .panic msg s) ∧
    (∀ c : Chan T, ch = some c → Reachable c → c.closed = true → queue c = [] →
      Recv ch = .ret default ch) := by
  refine ⟨Recv_state ch, ?_, ?_, ?_, ?_⟩
  · intro s
    unfold Recv
    cases h : TryRecv ch with
    | ret a s1 => cases a; simp
    | panic msg s1 => simp
    | block s1 => simp
  · intro v s
    unfold Recv
    cases h : TryRecv ch with
    | ret a s1 => cases a; simp
    | panic msg s1 => simp
    | block s1 => simp
  · intro msg s
    unfold Recv
    cases h : TryRecv ch with
    | ret a s1 => cases a; simp
    | panic msg s1 => simp
    | block s1 => simp
  · intro c hch hr hc hq
    subst hch
    exact Recv_of_ret _ _ _ _ ((TryRecv_inv_nil c (reachable_inv c hr) hq).2 hc)

theorem recv_drops_flag_witness :
    Reachable sampleDrained ∧ sampleDrained.closed = true ∧ queue sampleDrained = [] ∧
      Recv (some sampleDrained) = .ret default (some sampleDrained) ∧
      TryRecv (some sampleDrained) = .ret (default, false) (some sampleDrained) ∧
      Recv (some sampleOpen) = .ret 9 (Recv (some sampleOpen)).state :=
  have hr : Reachable sampleDrained := ⟨[Op.close], rfl⟩
  ⟨hr, rfl, rfl, (recv_drops_flag (some sampleDrained)).2.2.2.2 sampleDrained rfl hr rfl rfl,
    rfl, rfl⟩

/-! ## The helpers of `chans.go` on native channels -/

/-- C11: `Closed` does not report closedness on every native channel.  On the
closed channel that still has the value 7 buffered, `Closed` returns false and
takes the 7 out of the buffer; `Done` on a closed channel with a buffered value
returns false in the same way. -/
theorem Closed_false_on_closed_buffered :
    nativeClosedBuffered.closed = true ∧
    Closed (some nativeClosedBuffered) =
      (false, some { cap := 1, buf := [], sendq := [], closed := true }) ∧
    Done (some { cap := 1, buf := [()], sendq := [], closed := true }) =
      (false, some { cap := 1, buf := [], sendq := [], closed := true }) := by
  refine ⟨rfl, rfl, rfl⟩

/-- C12: `CloseOnce` is not a safe idempotent close on every native channel.
On the open channel with the values 1 and 2 buffered the first `CloseOnce`
closes the channel and the second one panics with "close of closed channel";
on the closed channel with 7 buffered the first `CloseOnce` already panics. -/
theorem CloseOnce_twice_panics :
    CloseOnce (some nativeTwoBuffered) =
      .ret () (some { cap := 2, buf := [2], sendq := [], closed := true }) ∧
    CloseOnce (some { cap := 2, buf := [2], sendq := [], closed := true } :
        Option (GoChan Nat)) =
      .panic "close of closed channel"
        (some { cap := 2, buf := [], sendq := [], closed := true }) ∧
    CloseOnce (some nativeClosedBuffered) =
      .panic "close of closed channel"
        (some { cap := 1, buf := [], sendq := [], closed := true }) := by
  refine ⟨rfl, rfl, rfl⟩

/-- C20: `Closed` consumes a buffered value.  When the buffer of a native
channel holds a value, the channel open or closed, `Closed` returns false and
the oldest buffered value is gone from the channel (a blocked sender's value
may move in behind the others); so the channel is left as it was only when
nothing is buffered.  With nothing buffered and no sender blocked, `Closed`
leaves the channel as it is and returns true when it is closed and false when
it is open; on a nil channel it returns false. -/
theorem Closed_consumes_buffered (c : GoChan T) :
    (∀ v rest, c.buf = v :: rest →
      ∃ (c1 : GoChan T) (moved : List T), Closed (some c) = (false, some c1) ∧
        c1.buf = rest ++ moved ∧ moved ++ c1.sendq = c.sendq ∧ moved.length ≤ 1 ∧
        c1.closed = c.closed ∧ c1.cap = c.cap) ∧
    ((Closed (some c)).2 = some c → c.buf = []) ∧
    (c.buf = [] → c.sendq = [] → Closed (some c) = (c.closed, some c)) ∧
    (∀ s ss, c.buf = [] → c.closed = false → c.sendq = s :: ss →
      Closed (some c) = (false, some { c with sendq := ss })) ∧
    Closed (none : Option (GoChan T)) = (false, none) := by
  obtain ⟨cap, buf, sendq, closed⟩ := c
  refine ⟨?_, ?_, ?_, ?_, rfl⟩
  · intro v rest hbuf
    simp only at hbuf
    subst hbuf
    cases closed with
    | true => exact ⟨_, [], rfl, by simp, rfl, by simp, rfl, rfl⟩
    | false =>
      cases sendq with
      | nil => exact ⟨_, [], rfl, by simp, rfl, by simp, rfl, rfl⟩
      | cons s ss => exact ⟨_, [s], rfl, rfl, rfl, by simp, rfl, rfl⟩
  · intro h
    cases buf with
    | nil => rfl
    | cons v rest =>
      exfalso
      cases closed with
      | true =>
        have h1 := congrArg (fun o => o.map (fun x => x.buf.length)) h
        simp [Closed, recvNow] at h1
      | false =>
        cases sendq with
        | nil =>
          have h1 := congrArg (fun o => o.map (fun x => x.buf.length)) h
          simp [Closed, recvNow] at h1
        | cons s ss =>
          have h1 := congrArg (fun o => o.map (fun x => x.sendq.length)) h
          simp [Closed, recvNow] at h1
  · intro hbuf hq
    simp only at hbuf hq
    subst hbuf hq
    cases closed <;> rfl
  · intro s ss hbuf hc hq
    simp only at hbuf hc hq
    subst hbuf hc hq
    rfl

theorem Closed_consumes_buffered_witness :
    (∃ (c1 : GoChan Nat) (moved : List Nat),
        Closed (some nativeClosedBuffered) = (false, some c1) ∧
        c1.buf = [] ++ moved ∧ moved ++ c1.sendq = nativeClosedBuffered.sendq ∧
        moved.length ≤ 1 ∧ c1.closed = nativeClosedBuffered.closed ∧
        c1.cap = nativeClosedBuffered.cap) ∧
    Closed (some nativeFresh) = (false, some nativeFresh) :=
  ⟨(Closed_consumes_buffered nativeClosedBuffered).1 7 [] rfl,
    (Closed_consumes_buffered nativeFresh).2.2.1 rfl rfl⟩

/-! ## Invariants of the channel -/

/-- C14: FIFO under arbitrary interleaving.  For every finite sequence of
`Send`, `TryRecv`, `Recv` and `Close` calls made one at a time on the channel
that `New` returns, the values returned by the successful receives, in the
order returned, followed by the values still queued from head to tail, are
the values of the `Send` calls that returned normally, in the order sent. -/
theorem fifo_any_calls (ops : List (Op T)) :
    ∃ c1 : Chan T, (run New ops).2 = some c1 ∧
      received New ops ++ queue c1 = sent New ops := by
  obtain ⟨c0, hnew, hi0, _, hq0⟩ := New_inv (T := T)
  obtain ⟨c1, hrun, _, hq⟩ := run_fifo ops c0 hi0
  rw [hq0, List.nil_append] at hq
  exact ⟨c1, by rw [hnew, hrun], by rw [hnew, hq]⟩

/-- C15: the free-list bound.  In every state reachable from `New()`, `free`
starts a nil-terminated chain, `freed` is the number of nodes on it, and
`0 <= freed <= maxFreeCache = 1000`; so at most 1000 recycled nodes are ever
retained, and the loop of `Close` is done within 1000 iterations. -/
theorem free_list_bound (c : Chan T) (h : Reachable c) :
    IsList c.store c.free (freeNodes c) ∧
    c.freed = ((freeNodes c).length : Int) ∧
    0 ≤ c.freed ∧ c.freed ≤ maxFreeCache ∧ maxFreeCache = 1000 ∧
    (freeNodes c).length ≤ 1000 ∧
    ∃ st1, closeLoop 1000 c.store c.free = some st1 ∧
      closeLoop (c.store.length + 1) c.store c.free = some st1 := by
  have hr := rep_of_inv c (reachable_inv c h)
  obtain ⟨_, hf, _, hnd, hfreed, hmax, _, _⟩ := hr
  have hlen : (freeNodes c).length ≤ 1000 := by
    have h1 : ((freeNodes c).length : Int) ≤ 1000 := hmax
    omega
  refine ⟨hf, hfreed, by rw [hfreed]; omega, by rw [hfreed]; exact hmax, rfl, hlen, ?_⟩
  obtain ⟨st1, hrun1, _⟩ :=
    closeLoop_spec (freeNodes c) _ c.store 1000 hf (List.nodup_append.mp hnd).2.1 hlen
  obtain ⟨st2, hrun2⟩ := closeLoop_total c.store c.free
  have h1 := closeLoop_mono 1000 (c.store.length + 1) _ _ st1 hrun1
  have h2 := closeLoop_mono (c.store.length + 1) 1000 _ _ st2 hrun2
  rw [Nat.add_comm] at h2
  rw [h1] at h2
  cases h2
  exact ⟨st1, hrun1, hrun2⟩

theorem free_list_bound_witness :
    Reachable sampleRecycled ∧ freeNodes sampleRecycled = [0] ∧
      sampleRecycled.freed = ((freeNodes sampleRecycled).length : Int) ∧
      sampleRecycled.freed ≤ maxFreeCache :=
  have hr : Reachable sampleRecycled := ⟨[Op.send 7, Op.tryRecv], rfl⟩
  ⟨hr, rfl, (free_list_bound sampleRecycled hr).2.1, (free_list_bound sampleRecycled hr).2.2.2.1⟩

/-- C16: closed is terminal.  In the state that a successful `Close()` leaves,
and in every state that any further `Send`, `TryRecv`, `Recv` and `Close` calls
lead to, those that panic included, `closed` is true, the free-list is empty
with `freed = 0`, and the queue is a final part of the queue at the close: it
gains no value. -/
theorem closed_is_terminal (c0 c : Chan T) (h : Reachable c0)
    (hclose : Close (some c0) = .ret () (some c)) (ops : List (Op T)) :
    ∃ c1 : Chan T, (run (some c) ops).2 = some c1 ∧ c1.closed = true ∧
      c1.free = none ∧ c1.freed = 0 ∧ freeNodes c1 = [] ∧ queue c1 <:+ queue c := by
  have hi0 := reachable_inv c0 h
  have hopen : c0.closed = false := by
    cases hc : c0.closed with
    | false => rfl
    | true =>
      rw [Close_closed c0 hi0.1 hc] at hclose
      cases hclose
  obtain ⟨c2, hret, hi2, hc2, _⟩ := Close_inv c0 hi0 hopen
  rw [hret] at hclose
  cases hclose
  obtain ⟨c1, hrun, hi1, hc1, hq1⟩ := run_closed ops c hi2 hc2
  obtain ⟨hfree, hfreed, hfn⟩ := closed_free_empty c1 hi1 hc1
  exact ⟨c1, hrun, hc1, hfree, hfreed, hfn, hq1⟩

theorem closed_is_terminal_witness :
    Reachable sampleOpen ∧
      Close (some sampleOpen) = .ret () (some { sampleOpen with closed := true }) ∧
      ∃ c1 : Chan Nat,
        (run (some { sampleOpen with closed := true })
          [Op.send 5, Op.tryRecv, Op.close, Op.recv, Op.recv]).2 = some c1 ∧
        c1.closed = true ∧ c1.free = none ∧ c1.freed = 0 ∧ freeNodes c1 = [] ∧
        queue c1 <:+ queue { sampleOpen with closed := true } :=
  have hr : Reachable sampleOpen :=
    ⟨[Op.send 7, Op.send 9, Op.tryRecv, Op.send 11], rfl⟩
  ⟨hr, rfl, closed_is_terminal sampleOpen _ hr rfl _⟩

/-- C17: no value is retained by recycled nodes.  In every state reachable from
`New()` every node on the free-list holds the zero value; and a `TryRecv` that
finds a node at `head` returns its value and leaves that node out of the live
queue and holding the zero value, whether it was recycled or dropped. -/
theorem free_nodes_cleared (c : Chan T) (h : Reachable c) :
    (∀ a ∈ freeNodes c, (rd c.store a).data = default) ∧
    (∀ n, c.head = some n →
      ∃ c1 : Chan T, TryRecv (some c) = .ret ((rd c.store n).data, true) (some c1) ∧
        (rd c1.store n).data = default ∧ n ∉ liveNodes c1) := by
  have hi := reachable_inv c h
  have hr := rep_of_inv c hi
  refine ⟨hr.2.2.2.2.2.2.2, ?_⟩
  intro n hh
  have hcases : liveNodes c = [] ∨ ∃ m q, liveNodes c = m :: q := by
    cases liveNodes c with
    | nil => exact Or.inl rfl
    | cons m q => exact Or.inr ⟨m, q, rfl⟩
  rcases hcases with hlive | ⟨m, q, hlive⟩
  · rw [hlive] at hr
    have hnone : c.head = none := hr.1
    rw [hnone] at hh
    cases hh
  · rw [hlive] at hr
    have hm : c.head = some m := hr.1.1
    rw [hm] at hh
    cases hh
    obtain ⟨c1, hs, _, _, hr1, _⟩ := TryRecv_spec c n q _ hi.1 hr
    refine ⟨c1, hs, TryRecv_clears c n q _ hi.1 hr _ c1 hs, ?_⟩
    rw [liveNodes_of_rep c1 _ _ hr1]
    have hnd : (n :: (q ++ freeNodes c)).Nodup := hr.2.2.2.1
    exact fun hmem => (List.nodup_cons.mp hnd).1 (List.mem_append_left _ hmem)

theorem free_nodes_cleared_witness :
    Reachable sampleRecycled ∧ freeNodes sampleRecycled = [0] ∧
      (∀ a ∈ freeNodes sampleRecycled, (rd sampleRecycled.store a).data = default) ∧
      Reachable sampleOpen ∧ sampleOpen.head = some 1 ∧
      ∃ c1 : Chan Nat, TryRecv (some sampleOpen) = .ret (9, true) (some c1) ∧
        (rd c1.store 1).data = default ∧ 1 ∉ liveNodes c1 :=
  have hr : Reachable sampleRecycled := ⟨[Op.send 7, Op.tryRecv], rfl⟩
  have ho : Reachable sampleOpen :=
    ⟨[Op.send 7, Op.send 9, Op.tryRecv, Op.send 11], rfl⟩
  ⟨hr, rfl, (free_nodes_cleared sampleRecycled hr).1, ho, rfl,
    (free_nodes_cleared sampleOpen ho).2 1 rfl⟩

/-- C18: queue well-formedness.  In every state reachable from `New()`, `head`
is nil if and only if `tail` is nil, if and only if the live queue is empty;
`head` starts the nil-terminated chain of the live nodes, `tail` is the last
node of that chain, and the `next` pointer of `tail` is nil. -/
theorem queue_well_formed (c : Chan T) (h : Reachable c) :
    (c.head = none ↔ c.tail = none) ∧
    (c.tail = none ↔ liveNodes c = []) ∧
    (liveNodes c = [] ↔ queue c = []) ∧
    IsList c.store c.head (liveNodes c) ∧
    c.tail = (liveNodes c).getLast? ∧
    (∀ t, c.tail = some t → (rd c.store t).next = none) := by
  have hr := rep_of_inv c (reachable_inv c h)
  obtain ⟨hq, _, htail, _⟩ := hr
  have hhead : c.head = none ↔ liveNodes c = [] := by
    cases hl : liveNodes c with
    | nil =>
      rw [hl] at hq
      have : c.head = none := hq
      simp [this]
    | cons a as =>
      rw [hl] at hq
      have : c.head = some a := hq.1
      simp [this]
  have htl : c.tail = none ↔ liveNodes c = [] := by
    rw [htail]
    exact List.getLast?_eq_none_iff
  refine ⟨hhead.trans htl.symm, htl, ?_, hq, htail, ?_⟩
  · unfold queue
    simp
  · intro t ht
    rw [htail] at ht
    exact IsList.last_next t _ _ hq ht

theorem queue_well_formed_witness :
    Reachable sampleOpen ∧ liveNodes sampleOpen = [1, 0] ∧
      sampleOpen.tail = (liveNodes sampleOpen).getLast? ∧
      (∀ t, sampleOpen.tail = some t → (rd sampleOpen.store t).next = none) :=
  have ho : Reachable sampleOpen :=
    ⟨[Op.send 7, Op.send 9, Op.tryRecv, Op.send 11], rfl⟩
  ⟨ho, rfl, (queue_well_formed sampleOpen ho).2.2.2.2.1,
    (queue_well_formed sampleOpen ho).2.2.2.2.2⟩

/-- C19: disjointness.  In every state reachable from `New()` the live queue
and the free-list are chains that share no node and repeat none.  Over any one
call, a node that is new on the free-list comes from the live queue and is no
longer in it, and a node that is new in the live queue comes from the
free-list, or is newly allocated, and is no longer on the free-list. -/
theorem chains_disjoint (c : Chan T) (h : Reachable c) :
    (liveNodes c ++ freeNodes c).Nodup ∧
    (∀ a ∈ liveNodes c, a ∉ freeNodes c) ∧
    (liveNodes c).Nodup ∧ (freeNodes c).Nodup ∧
    IsList c.store c.head (liveNodes c) ∧ IsList c.store c.free (freeNodes c) ∧
    (∀ o : Op T, ∃ c1 : Chan T, (call (some c) o).2 = some c1 ∧
      (∀ a ∈ freeNodes c1, a ∉ freeNodes c → a ∈ liveNodes c ∧ a ∉ liveNodes c1) ∧
      (∀ a ∈ liveNodes c1, a ∉ liveNodes c →
        (a ∈ freeNodes c ∨ a = c.store.length) ∧ a ∉ freeNodes c1)) := by
  have hi := reachable_inv c h
  have hr := rep_of_inv c hi
  obtain ⟨hq, hf, _, hnd, _⟩ := hr
  refine ⟨hnd, fun a ha hb => (List.nodup_append.mp hnd).2.2 ha hb,
    (List.nodup_append.mp hnd).1, (List.nodup_append.mp hnd).2.1, hq, hf, ?_⟩
  intro o
  obtain ⟨c1, hcall, hi1, hfree, hlive⟩ := call_moves c o hi
  have hnd1 : (liveNodes c1 ++ freeNodes c1).Nodup := (rep_of_inv c1 hi1).2.2.2.1
  have hdisj1 := (List.nodup_append.mp hnd1).2.2
  refine ⟨c1, hcall, ?_, ?_⟩
  · intro a ha hnot
    rcases hfree a ha with hold | hq1
    · exact absurd hold hnot
    · exact ⟨hq1, fun hl => hdisj1 hl ha⟩
  · intro a ha hnot
    rcases hlive a ha with hold | hrest
    · exact absurd hold hnot
    · exact ⟨hrest, fun hfr => hdisj1 ha hfr⟩

theorem chains_disjoint_witness :
    Reachable sampleRecycled ∧
      (liveNodes sampleRecycled ++ freeNodes sampleRecycled).Nodup ∧
      ∃ c1 : Chan Nat, (call (some sampleRecycled) (Op.send 3)).2 = some c1 ∧
        (∀ a ∈ freeNodes c1, a ∉ freeNodes sampleRecycled →
          a ∈ liveNodes sampleRecycled ∧ a ∉ liveNodes c1) ∧
        (∀ a ∈ liveNodes c1, a ∉ liveNodes sampleRecycled →
          (a ∈ freeNodes sampleRecycled ∨ a = sampleRecycled.store.length) ∧
            a ∉ freeNodes c1) :=
  have hr : Reachable sampleRecycled := ⟨[Op.send 7, Op.tryRecv], rfl⟩
  ⟨hr, (chains_disjoint sampleRecycled hr).1,
    (chains_disjoint sampleRecycled hr).2.2.2.2.2.2 (Op.send 3)⟩

end claims

end chans
